import Mathlib

/-!
Verification of the concurrency primitives of `tornado/locks.py` and
`tornado/queues.py` (a coroutine library: Condition, Event, Semaphore,
BoundedSemaphore, Lock, and Queue/PriorityQueue/LifoQueue).

The library runs on a single cooperative scheduler thread, so every public
operation is a synchronous state transition.  We embed each primitive as a
pure state machine: a waiter (a `Future` in the source) is a token carrying
its identity, whether it is already resolved (`done`), and whether a timeout
callback was registered for it (`reg`, true exactly when a truthy `timeout`
argument caused `io_loop.add_timeout` to be called).  Resolutions are
recorded in an append-only `log`, which lets theorems speak about the order
in which waiters are resolved and about which outcome each waiter received.
Timeout callbacks are modelled as explicit `fire` events that can only act
on a waiter whose `reg` flag is set (the scheduler holds no callback for the
others) and that is still unresolved (a resolved waiter has had its timeout
cancelled by the `add_done_callback` hook in the source).
-/

namespace Tornado

/-- Python truthiness of an optional numeric `timeout` argument:
`None` and `0` are falsy, every other number is truthy. -/
def truthy : Option Int → Bool
  | none => false
  | some v => v != 0

/-! ### The CPython `heapq` algorithm

`PriorityQueue._put`/`_get` delegate to `heapq.heappush`/`heapq.heappop`.
We transcribe CPython's `_siftdown`/`_siftup` loops; the `fuel` argument is
an upper bound on the number of loop iterations (`pos` strictly decreases in
`_siftdown` and strictly increases below `endpos` in `_siftup`, so `pos`
resp. `endpos` iterations always suffice). -/

/-- CPython `heapq._siftdown(heap, startpos, pos)` with `newitem = heap[pos]`. -/
def siftdownLoop (lt : α → α → Bool) (newitem : α) (startpos : Nat) :
    Nat → Nat → List α → List α
  | 0, pos, heap => heap.set pos newitem
  | fuel + 1, pos, heap =>
    if startpos < pos then
      let parentpos := (pos - 1) / 2
      let parent := heap.getD parentpos newitem
      if lt newitem parent then
        siftdownLoop lt newitem startpos fuel parentpos (heap.set pos parent)
      else heap.set pos newitem
    else heap.set pos newitem

/-- CPython `heapq._siftup(heap, pos)` with `newitem = heap[pos]`. -/
def siftupLoop (lt : α → α → Bool) (newitem : α) (startpos endpos : Nat) :
    Nat → Nat → List α → List α
  | 0, pos, heap => siftdownLoop lt newitem startpos pos pos (heap.set pos newitem)
  | fuel + 1, pos, heap =>
    let childpos := 2 * pos + 1
    if childpos < endpos then
      let rightpos := childpos + 1
      let childpos :=
        if rightpos < endpos &&
            !(lt (heap.getD childpos newitem) (heap.getD rightpos newitem)) then
          rightpos
        else childpos
      siftupLoop lt newitem startpos endpos fuel childpos
        (heap.set pos (heap.getD childpos newitem))
    else siftdownLoop lt newitem startpos pos pos (heap.set pos newitem)

/-- CPython `heapq.heappush(heap, item)`: append, then sift down from the
new last position. -/
def heappush (lt : α → α → Bool) (heap : List α) (item : α) : List α :=
  siftdownLoop lt item 0 heap.length heap.length (heap ++ [item])

/-- CPython `heapq.heappop(heap)`: pop the last element; if the heap is
still non-empty, move it to the root and sift up. `none` models the
`IndexError` on an empty heap. -/
def heappop (lt : α → α → Bool) (heap : List α) : Option (α × List α) :=
  match heap.getLast? with
  | none => none
  | some lastelt =>
    let rest := heap.dropLast
    match rest with
    | [] => some (lastelt, [])
    | r0 :: _ =>
      some (r0, siftupLoop lt lastelt 0 rest.length rest.length 0 (rest.set 0 lastelt))

/-! ### Ordering strategies

The three overridable `_init`/`_put`/`_get` triples of `Queue`,
`PriorityQueue` and `LifoQueue`. -/

/-- The three queue variants, distinguished only by their `_put`/`_get`. -/
inductive Strat where
  | fifo
  | lifo
  | prio
deriving DecidableEq, Repr

/-- Python `_put(item)`: FIFO appends to the deque, LIFO appends to the list,
priority does `heapq.heappush`. -/
def stratPut (lt : α → α → Bool) : Strat → α → List α → List α
  | .fifo, x, q => q ++ [x]
  | .lifo, x, q => q ++ [x]
  | .prio, x, q => heappush lt q x

/-- Python `_get()`: FIFO pops from the left, LIFO pops from the right, priority
does `heapq.heappop`. `none` models the `IndexError` on empty storage,
which the callers always guard against. -/
def stratGet (lt : α → α → Bool) : Strat → List α → Option (α × List α)
  | .fifo, q =>
    match q with
    | [] => none
    | x :: r => some (x, r)
  | .lifo, q =>
    match q.getLast? with
    | none => none
    | some x => some (x, q.dropLast)
  | .prio, q => heappop lt q

/-! ### The waiter-GC utility (`_TimeoutGarbageCollector._garbage_collect`) -/

/-- Shared body of `_garbage_collect`: increment the trigger counter; once
it exceeds 100, reset it and rebuild the waiter list keeping the entries
that are not yet done. -/
def garbageCollectL (done : W → Bool) (ws : List W) (timeouts : Nat) :
    List W × Nat :=
  let t := timeouts + 1
  if 100 < t then (ws.filter (fun w => !done w), 0) else (ws, t)

/-- A waiter as seen by the GC utility: identity plus resolved flag. -/
structure GCWaiter where
  id : Nat
  done : Bool
deriving DecidableEq, Repr

/-- State of a `_TimeoutGarbageCollector`: its waiter deque and the
`_timeouts` trigger counter (0 in `__init__`). -/
structure GCState where
  waiters : List GCWaiter
  timeouts : Nat
deriving DecidableEq, Repr

/-- One call of `_garbage_collect`. -/
def gcTrigger (s : GCState) : GCState :=
  let (ws, t) := garbageCollectL (fun w => w.done) s.waiters s.timeouts
  ⟨ws, t⟩

/-! ### Condition (`locks.Condition`)

`wait` appends an unresolved waiter `Future` to the FIFO deque; a truthy
`timeout` registers a timeout callback that would resolve it to `False`.
`notify(n)` pops entries from the front, skipping resolved ones, and
resolves up to `n` live waiters to `True`.  The `log` records every
resolution as `(waiter id, result)`. -/

/-- A `Future` parked in `Condition._waiters`. -/
structure CWaiter where
  id : Nat
  done : Bool
  reg : Bool
deriving DecidableEq, Repr

/-- State of a `Condition`: waiter deque, `_timeouts` GC counter, a counter
supplying fresh waiter identities, and the resolution log. -/
structure Cond where
  waiters : List CWaiter
  timeouts : Nat
  nextId : Nat
  log : List (Nat × Bool)
deriving DecidableEq, Repr

/-- A fresh `Condition()`. -/
def Cond.initC : Cond := ⟨[], 0, 0, []⟩

/-- Python `Condition.wait(timeout)`: append a fresh waiter; with a truthy timeout
an `on_timeout` callback is registered for it.  Returns the waiter's id. -/
def Cond.wait (t : Option Int) (c : Cond) : Cond × Nat :=
  ({ c with
      waiters := c.waiters ++ [⟨c.nextId, false, truthy t⟩],
      nextId := c.nextId + 1 },
    c.nextId)

/-- The `while n and self._waiters` loop of `Condition.notify`: returns the
waiters collected for waking and the remaining deque. -/
def notifyLoop : Nat → List CWaiter → List CWaiter × List CWaiter
  | 0, ws => ([], ws)
  | _ + 1, [] => ([], [])
  | n + 1, w :: rest =>
    if w.done then notifyLoop (n + 1) rest
    else
      let (wake, rem) := notifyLoop n rest
      (w :: wake, rem)

/-- Python `Condition.notify(n)`: collect up to `n` live waiters from the front
(discarding resolved ones scanned on the way), then resolve each to `True`. -/
def Cond.notify (n : Nat) (c : Cond) : Cond :=
  let (wake, rem) := notifyLoop n c.waiters
  { c with waiters := rem, log := c.log ++ wake.map (fun w => (w.id, true)) }

/-- Python `Condition.notify_all()`. -/
def Cond.notifyAll (c : Cond) : Cond := c.notify c.waiters.length

/-- The `on_timeout` callback of `Condition.wait` firing for waiter `i`:
it exists only if a timeout was registered (`reg`), and it can only act on a
still-unresolved waiter (resolution removes the timeout).  It resolves the
waiter to `False` and runs `_garbage_collect`. -/
def Cond.fire (i : Nat) (c : Cond) : Cond :=
  if c.waiters.any (fun w => w.id == i && w.reg && !w.done) then
    let ws := c.waiters.map (fun w => if w.id == i then { w with done := true } else w)
    let (ws2, t2) := garbageCollectL (fun w => w.done) ws c.timeouts
    { c with waiters := ws2, timeouts := t2, log := c.log ++ [(i, false)] }
  else c

/-- Events that can happen to a `Condition`. -/
inductive CondOp where
  | wait (t : Option Int)
  | notify (n : Nat)
  | notifyAll
  | fire (i : Nat)

/-- Apply one event to a `Condition`. -/
def applyCondOp : CondOp → Cond → Cond
  | .wait t, c => (Cond.wait t c).1
  | .notify n, c => Cond.notify n c
  | .notifyAll, c => Cond.notifyAll c
  | .fire i, c => Cond.fire i c

/-- Run a sequence of events on a `Condition`. -/
def runCond (ops : List CondOp) (c : Cond) : Cond :=
  ops.foldl (fun c op => applyCondOp op c) c

/-! ### Semaphore / BoundedSemaphore / Lock (`locks.py`)

`acquire` decrements `_value` if positive (resolving the returned future
immediately), else enqueues a waiter.  `release` increments `_value` and
then scans the deque from the front: resolved waiters are popped and
discarded; the first live one is popped, `_value` is decremented again, and
the waiter is resolved with a release handle.  The `log` records `(waiter
id, outcome)` for every waiter resolution. -/

/-- Outcome delivered to a semaphore waiter: the `_ReleasingContextManager`
handle from `release`, or the `TimeoutError` from `on_timeout`. -/
inductive SemRes where
  | handle
  | timeoutErr
deriving DecidableEq, Repr

/-- A `Future` parked in `Semaphore._waiters`. -/
structure SWaiter where
  id : Nat
  done : Bool
  reg : Bool
deriving DecidableEq, Repr

/-- State of a `Semaphore`: `_value`, waiter deque, `_timeouts` GC counter,
fresh-identity counter, resolution log. -/
structure Sem where
  value : Int
  waiters : List SWaiter
  timeouts : Nat
  nextId : Nat
  log : List (Nat × SemRes)
deriving DecidableEq, Repr

/-- Python `Semaphore(value)` for a non-negative initial value (the constructor
rejects negative ones with `ValueError`). -/
def Sem.init (v : Nat) : Sem := ⟨(v : Int), [], 0, 0, []⟩

/-- Python `Semaphore.acquire(timeout)`.  Returns the new state and the id of the
enqueued waiter, or `none` when a permit was available immediately. -/
def Sem.acquire (t : Option Int) (s : Sem) : Sem × Option Nat :=
  if 0 < s.value then
    ({ s with value := s.value - 1 }, none)
  else
    ({ s with
        waiters := s.waiters ++ [⟨s.nextId, false, truthy t⟩],
        nextId := s.nextId + 1 },
      some s.nextId)

/-- The `while self._waiters` loop of `Semaphore.release`: pop and discard
resolved waiters; on the first live one decrement the value again and
resolve it (returning its id). -/
def releaseLoop : Int → List SWaiter → Int × List SWaiter × Option Nat
  | v, [] => (v, [], none)
  | v, w :: rest =>
    if w.done then releaseLoop v rest
    else (v - 1, rest, some w.id)

/-- Python `Semaphore.release()`. -/
def Sem.release (s : Sem) : Sem :=
  let (v, ws, r) := releaseLoop (s.value + 1) s.waiters
  { s with
      value := v, waiters := ws,
      log :=
        match r with
        | some i => s.log ++ [(i, SemRes.handle)]
        | none => s.log }

/-- The `on_timeout` callback of `Semaphore.acquire` firing for waiter `i`:
only exists if registered, only acts on a still-unresolved waiter; sets a
`TimeoutError` and runs `_garbage_collect`. -/
def Sem.fire (i : Nat) (s : Sem) : Sem :=
  if s.waiters.any (fun w => w.id == i && w.reg && !w.done) then
    let ws := s.waiters.map (fun w => if w.id == i then { w with done := true } else w)
    let (ws2, t2) := garbageCollectL (fun w => w.done) ws s.timeouts
    { s with waiters := ws2, timeouts := t2, log := s.log ++ [(i, SemRes.timeoutErr)] }
  else s

/-- Python `BoundedSemaphore.release()`: raise `ValueError` (modelled as `none`,
the state unchanged since the check precedes any mutation) when `_value`
has already reached `_initial_value`; otherwise behave as
`Semaphore.release`. -/
def boundedRelease (initial : Int) (s : Sem) : Option Sem :=
  if initial ≤ s.value then none else some s.release

/-- Events that can happen to a `Semaphore`. -/
inductive SemOp where
  | acquire (t : Option Int)
  | release
  | fire (i : Nat)

/-- Apply one event to an unbounded `Semaphore`. -/
def applySemOp : SemOp → Sem → Sem
  | .acquire t, s => (Sem.acquire t s).1
  | .release, s => Sem.release s
  | .fire i, s => Sem.fire i s

/-- Run a sequence of events on an unbounded `Semaphore`. -/
def runSem (ops : List SemOp) (s : Sem) : Sem :=
  ops.foldl (fun s op => applySemOp op s) s

/-- Apply one event to a `BoundedSemaphore` with the given initial value;
`none` when `release` raises. -/
def applyBddOp (initial : Int) : SemOp → Sem → Option Sem
  | .acquire t, s => some (Sem.acquire t s).1
  | .release, s => boundedRelease initial s
  | .fire i, s => some (Sem.fire i s)

/-- Run a sequence of events on a `BoundedSemaphore`; `none` as soon as a
`release` raises. -/
def runBdd (initial : Int) (ops : List SemOp) (s : Sem) : Option Sem :=
  ops.foldl (fun acc op => acc.bind (applyBddOp initial op)) (some s)

/-- Python `Lock()`: its `_block` is `BoundedSemaphore(value=1)`. -/
def lockNew : Sem := Sem.init 1

/-- The `RuntimeError('release unlocked lock')` of `Lock.release`. -/
inductive LockErr where
  | releaseUnlocked
deriving DecidableEq, Repr

/-- Python `Lock.acquire(timeout)` delegates to `self._block.acquire(timeout)`. -/
def lockAcquire (t : Option Int) (s : Sem) : Sem × Option Nat :=
  Sem.acquire t s

/-- Python `Lock.release()`: delegate to the bounded semaphore's `release`,
translating its `ValueError` into `RuntimeError('release unlocked lock')`. -/
def lockRelease (s : Sem) : Except LockErr Sem :=
  match boundedRelease 1 s with
  | some s2 => .ok s2
  | none => .error .releaseUnlocked

/-! ### Queue / PriorityQueue / LifoQueue (`queues.py`)

The queue couples ordering-strategy storage with a getter deque (`Future`s)
and a putter deque (`(item, Future)` pairs), plus `_unfinished_tasks` and
the completion `Event` `_finished` (set in `__init__`).  Every non-blocking
operation first runs `_consume_expired`, which purges resolved waiters from
the front of both deques.  The `log` records `(waiter id, outcome)` for
every waiter resolution. -/

/-- A `Future` parked in `Queue._getters` or `Queue._putters`. -/
structure QWaiter where
  id : Nat
  done : Bool
  reg : Bool
deriving DecidableEq, Repr

/-- Outcome delivered to a queue waiter: an item (getter resolved by
`put_nowait`), a completed put (putter resolved by `get_nowait`), or the
`TimeoutError` from `_set_timeout`'s `on_timeout`. -/
inductive QLog (α : Type) where
  | gotItem (x : α)
  | putOk
  | timeoutErr
deriving DecidableEq, Repr

/-- State of a `Queue`: `maxsize` (0 = unbounded), the strategy storage
`_queue`, the two waiter deques, `_unfinished_tasks`, whether `_finished`
is set, a fresh-identity counter, and the resolution log. -/
structure Q (α : Type) where
  maxsize : Nat
  queue : List α
  getters : List QWaiter
  putters : List (α × QWaiter)
  unfinished : Int
  finished : Bool
  nextId : Nat
  log : List (Nat × QLog α)
deriving DecidableEq, Repr

/-- Python `Queue(maxsize)` (non-negative; negative raises at construction):
empty storage and deques, `_unfinished_tasks = 0`, `_finished` set. -/
def initQ (m : Nat) : Q α := ⟨m, [], [], [], 0, true, 0, []⟩

/-- Python `Queue._consume_expired()`: pop resolved waiters from the front of the
putter and getter deques. -/
def consumeExpired (s : Q α) : Q α :=
  { s with
      putters := s.putters.dropWhile (fun p => p.2.done),
      getters := s.getters.dropWhile (fun g => g.done) }

/-- Python `Queue.__put_internal(item)`: count the task, clear `_finished`, and
insert through the ordering strategy. -/
def putInternal (lt : α → α → Bool) (st : Strat) (x : α) (s : Q α) : Q α :=
  { s with
      unfinished := s.unfinished + 1,
      finished := false,
      queue := stratPut lt st x s.queue }

/-- Python `Queue.put_nowait(item)`.  Returns the new state and whether the put
succeeded (`false` models the `QueueFull` raise, after which the purge done
by `_consume_expired` persists).  If a getter is waiting, the item is
inserted through the strategy and the oldest getter is resolved with a
fresh strategy extraction, not with the raw item. -/
def putNowait (lt : α → α → Bool) (st : Strat) (x : α) (s : Q α) : Q α × Bool :=
  let s1 := consumeExpired s
  match s1.getters with
  | getter :: grest =>
    let s2 := putInternal lt st x { s1 with getters := grest }
    match stratGet lt st s2.queue with
    | some (y, q2) =>
      ({ s2 with queue := q2, log := s2.log ++ [(getter.id, QLog.gotItem y)] }, true)
    | none => (s2, true)
  | [] =>
    if s1.maxsize ≠ 0 ∧ s1.maxsize ≤ s1.queue.length then (s1, false)
    else (putInternal lt st x s1, true)

/-- Python `Queue.put(item, timeout)`: try `put_nowait`; on `QueueFull` enqueue
`(item, Future)` on the putter deque, registering a timeout callback when
`timeout` is truthy.  Returns the enqueued waiter's id, or `none` when the
put completed immediately. -/
def put (lt : α → α → Bool) (st : Strat) (x : α) (t : Option Int) (s : Q α) :
    Q α × Option Nat :=
  let (s1, ok) := putNowait lt st x s
  if ok then (s1, none)
  else
    ({ s1 with
        putters := s1.putters ++ [(x, ⟨s1.nextId, false, truthy t⟩)],
        nextId := s1.nextId + 1 },
      some s1.nextId)

/-- Python `Queue.get_nowait()`.  Returns the new state and the extracted item
(`none` models the `QueueEmpty` raise).  If a putter is waiting, its item
is inserted through the strategy, the putter is resolved, and the returned
item is a fresh strategy extraction — not necessarily the putter's item. -/
def getNowait (lt : α → α → Bool) (st : Strat) (s : Q α) : Q α × Option α :=
  let s1 := consumeExpired s
  match s1.putters with
  | (item, putter) :: prest =>
    let s2 := putInternal lt st item { s1 with putters := prest }
    let s3 := { s2 with log := s2.log ++ [(putter.id, QLog.putOk)] }
    match stratGet lt st s3.queue with
    | some (y, q2) => ({ s3 with queue := q2 }, some y)
    | none => (s3, none)
  | [] =>
    match stratGet lt st s1.queue with
    | some (y, q2) => ({ s1 with queue := q2 }, some y)
    | none => (s1, none)

/-- What `Queue.get` returns: an already-resolved future carrying an item,
or a pending getter waiter. -/
inductive FutOut (α : Type) where
  | ready (x : α)
  | pending (id : Nat)
deriving DecidableEq, Repr

/-- Python `Queue.get(timeout)`: try `get_nowait`; on `QueueEmpty` enqueue a getter
`Future`, registering a timeout callback when `timeout` is truthy. -/
def getQ (lt : α → α → Bool) (st : Strat) (t : Option Int) (s : Q α) :
    Q α × FutOut α :=
  match getNowait lt st s with
  | (s1, some x) => (s1, .ready x)
  | (s1, none) =>
    ({ s1 with
        getters := s1.getters ++ [⟨s1.nextId, false, truthy t⟩],
        nextId := s1.nextId + 1 },
      .pending s1.nextId)

/-- Python `Queue.task_done()`.  Returns the new state and whether the call
succeeded (`false` models the `ValueError` raise, the state unchanged since
the check precedes any mutation).  On success decrement
`_unfinished_tasks`, setting `_finished` when it reaches zero. -/
def taskDone (s : Q α) : Q α × Bool :=
  if s.unfinished ≤ 0 then (s, false)
  else
    let u := s.unfinished - 1
    ({ s with unfinished := u, finished := if u = 0 then true else s.finished }, true)

/-- The `on_timeout` of `_set_timeout` firing for getter `i`: only exists
if registered, only acts on a still-unresolved waiter; sets `TimeoutError`. -/
def fireGetter (i : Nat) (s : Q α) : Q α :=
  if s.getters.any (fun g => g.id == i && g.reg && !g.done) then
    { s with
        getters := s.getters.map (fun g => if g.id == i then { g with done := true } else g),
        log := s.log ++ [(i, QLog.timeoutErr)] }
  else s

/-- The `on_timeout` of `_set_timeout` firing for putter `i`. -/
def firePutter (i : Nat) (s : Q α) : Q α :=
  if s.putters.any (fun p => p.2.id == i && p.2.reg && !p.2.done) then
    { s with
        putters := s.putters.map
          (fun p => if p.2.id == i then (p.1, { p.2 with done := true }) else p),
        log := s.log ++ [(i, QLog.timeoutErr)] }
  else s

/-- Events that can happen to a `Queue`. -/
inductive QOp (α : Type) where
  | putNowait (x : α)
  | put (x : α) (t : Option Int)
  | getNowait
  | get (t : Option Int)
  | taskDone
  | fireGetter (i : Nat)
  | firePutter (i : Nat)

/-- Apply one event to a `Queue`. -/
def applyQOp (lt : α → α → Bool) (st : Strat) : QOp α → Q α → Q α
  | .putNowait x, s => (putNowait lt st x s).1
  | .put x t, s => (put lt st x t s).1
  | .getNowait, s => (getNowait lt st s).1
  | .get t, s => (getQ lt st t s).1
  | .taskDone, s => (taskDone s).1
  | .fireGetter i, s => fireGetter i s
  | .firePutter i, s => firePutter i s

/-- Run a sequence of events on a `Queue`. -/
def runQ (lt : α → α → Bool) (st : Strat) (ops : List (QOp α)) (s : Q α) : Q α :=
  ops.foldl (fun s op => applyQOp lt st op s) s

/-- Successive `put_nowait` calls. -/
def putsQ (lt : α → α → Bool) (st : Strat) (xs : List α) (s : Q α) : Q α :=
  xs.foldl (fun s x => (putNowait lt st x s).1) s

/-- Successive `get_nowait` calls, collecting the returned items and
stopping at the first `QueueEmpty`. -/
def getsQ (lt : α → α → Bool) (st : Strat) : Nat → Q α → List α
  | 0, _ => []
  | n + 1, s =>
    match getNowait lt st s with
    | (s1, some x) => x :: getsQ lt st n s1
    | (_, none) => []

/-- Python comparison of `(priority, payload)` tuples (lexicographic). -/
def ltNC (a b : Nat × Char) : Bool :=
  decide (a.1 < b.1) || (decide (a.1 = b.1) && decide (a.2 < b.2))

/-- Python `<` on plain integer items. -/
def ltNat (a b : Nat) : Bool := decide (a < b)

/-- A `PriorityQueue(maxsize=1)` holding the high-priority item `(0, y)`
with a blocked putter waiting to add the low-priority item `(5, x)`:
reached by `put_nowait((0, y))` then `put((5, x))`. -/
def c1State : Q (Nat × Char) :=
  (put ltNC .prio (5, 'x') none (putNowait ltNC .prio (0, 'y') (initQ 1)).1).1

/-! ### Invariant and safety predicates used by the theorems -/

/-- Identity freshness for a `Semaphore`: every waiter id and every logged
id is below the fresh-identity counter. -/
def SemFresh (s : Sem) : Prop :=
  (∀ w ∈ s.waiters, w.id < s.nextId) ∧ ∀ p ∈ s.log, p.1 < s.nextId

/-- Waiter `wid` of a `Semaphore` has no timeout registered and has never
been resolved with a `TimeoutError`. -/
def SemSafe (wid : Nat) (s : Sem) : Prop :=
  (∀ w ∈ s.waiters, w.id = wid → w.reg = false) ∧
    (wid, SemRes.timeoutErr) ∉ s.log ∧ wid < s.nextId

/-- Identity freshness for a `Condition`. -/
def CondFresh (c : Cond) : Prop :=
  (∀ w ∈ c.waiters, w.id < c.nextId) ∧ ∀ p ∈ c.log, p.1 < c.nextId

/-- Waiter `wid` of a `Condition` has no timeout registered and has never
been resolved to `False` (the timeout outcome). -/
def CondSafe (wid : Nat) (c : Cond) : Prop :=
  (∀ w ∈ c.waiters, w.id = wid → w.reg = false) ∧
    (wid, false) ∉ c.log ∧ wid < c.nextId

/-- Identity freshness for a `Queue`. -/
def QFresh (s : Q α) : Prop :=
  (∀ g ∈ s.getters, g.id < s.nextId) ∧
    (∀ p ∈ s.putters, p.2.id < s.nextId) ∧ ∀ e ∈ s.log, e.1 < s.nextId

/-- Waiter `wid` of a `Queue` (getter or putter) has no timeout registered
and has never been resolved with a `TimeoutError`. -/
def QSafe (wid : Nat) (s : Q α) : Prop :=
  (∀ g ∈ s.getters, g.id = wid → g.reg = false) ∧
    (∀ p ∈ s.putters, p.2.id = wid → p.2.reg = false) ∧
    (wid, QLog.timeoutErr) ∉ s.log ∧ wid < s.nextId

/-- The task-tracking invariant of a `Queue`: `_unfinished_tasks` is
non-negative and `_finished` is set exactly when it is zero. -/
def QTasks (s : Q α) : Prop :=
  0 ≤ s.unfinished ∧ (s.finished = true ↔ s.unfinished = 0)

/-! ## Theorems -/

/-- A property preserved by every step is preserved by a `foldl` run. -/
theorem foldl_preserve {σ β : Type _} (P : σ → Prop) (f : σ → β → σ)
    (h : ∀ s b, P s → P (f s b)) :
    ∀ (l : List β) (s : σ), P s → P (l.foldl f s) := by
  intro l
  induction l with
  | nil => intro s hs; simpa using hs
  | cons b rest ih => intro s hs; exact ih _ (h _ _ hs)

/-- Running `n` copies of one semaphore event is function iteration. -/
theorem runSem_replicate (n : Nat) (op : SemOp) (s : Sem) :
    runSem (List.replicate n op) s = (applySemOp op)^[n] s := by
  induction n generalizing s with
  | zero => rfl
  | succ m ih =>
    rw [List.replicate_succ, Function.iterate_succ_apply]
    exact ih _

/-- Running `runSem` over a concatenation splits. -/
theorem runSem_append (l1 l2 : List SemOp) (s : Sem) :
    runSem (l1 ++ l2) s = runSem l2 (runSem l1 s) :=
  List.foldl_append _ _ _ _

/-- As long as the counter stays at most 100, `_garbage_collect` only
increments it and leaves the waiter list alone. -/
theorem gcTrigger_iterate (ws : List GCWaiter) (k t : Nat) (h : t + k ≤ 100) :
    gcTrigger^[k] ⟨ws, t⟩ = ⟨ws, t + k⟩ := by
  induction k generalizing t with
  | zero => simp
  | succ m ih =>
    rw [Function.iterate_succ_apply]
    have h1 : gcTrigger ⟨ws, t⟩ = ⟨ws, t + 1⟩ := by
      have : ¬ 100 < t + 1 := by omega
      simp [gcTrigger, garbageCollectL, this]
    rw [h1, ih (t + 1) (by omega)]
    congr 1
    omega

/-- Claim C3, counterexample: the source compacts only when the counter
*exceeds* 100, so the 100th trigger after a fresh start (or after a reset)
still leaves a resolved waiter in the list, where the claimed
every-100th-trigger rebuild would have removed it. -/
theorem c3_gc_counterexample :
    gcTrigger^[100] ⟨[⟨0, true⟩], 0⟩ = ⟨[⟨0, true⟩], 100⟩ ∧
    gcTrigger ⟨[⟨0, true⟩], 99⟩ ≠
      ⟨List.filter (fun w => !w.done) [⟨0, true⟩], 0⟩ := by
  constructor
  · have h := gcTrigger_iterate [⟨0, true⟩] 100 0 (by omega)
    rw [Nat.zero_add] at h
    exact h
  · decide

/-- Claim C3, amended: the GC utility increments its counter on every
trigger and leaves the list unchanged while the counter is at most 100;
the rebuild that keeps only the not-yet-resolved entries (and resets the
counter) happens on every 101st trigger, not every 100th. -/
theorem c3_gc_amended (ws : List GCWaiter) (k : Nat) (hk : k ≤ 100) :
    gcTrigger^[k] ⟨ws, 0⟩ = ⟨ws, k⟩ ∧
    gcTrigger^[101] ⟨ws, 0⟩ = ⟨ws.filter (fun w => !w.done), 0⟩ := by
  constructor
  · have h := gcTrigger_iterate ws k 0 (by omega)
    rw [Nat.zero_add] at h
    exact h
  · have h := gcTrigger_iterate ws 100 0 (by omega)
    rw [Nat.zero_add] at h
    rw [show (101 : Nat) = 100 + 1 from rfl, Function.iterate_succ_apply', h]
    simp [gcTrigger, garbageCollectL]

/-- Witness for the amended C3 at a concrete trigger count. -/
theorem c3_gc_amended_witness :
    gcTrigger^[40] ⟨[⟨0, true⟩, ⟨1, false⟩], 0⟩ = ⟨[⟨0, true⟩, ⟨1, false⟩], 40⟩ ∧
    gcTrigger^[101] ⟨[⟨0, true⟩, ⟨1, false⟩], 0⟩ = ⟨[⟨1, false⟩], 0⟩ := by
  have h := c3_gc_amended [⟨0, true⟩, ⟨1, false⟩] 40 (by decide)
  exact ⟨h.1, by rw [h.2]; decide⟩

/-- Characterisation of the `Condition.notify` scan loop: the waiters
collected for waking are the first `n` live entries in deque order, and the
remaining deque is the unscanned suffix. -/
theorem notifyLoop_spec (n : Nat) (ws : List CWaiter) :
    (notifyLoop n ws).1 = (ws.filter (fun w => !w.done)).take n ∧
    ∃ k, (notifyLoop n ws).2 = ws.drop k ∧
      (notifyLoop n ws).1 = (ws.take k).filter (fun w => !w.done) := by
  induction ws generalizing n with
  | nil =>
    refine ⟨by cases n <;> simp [notifyLoop], 0, by cases n <;> simp [notifyLoop]⟩
  | cons w rest ih =>
    cases n with
    | zero => exact ⟨by simp [notifyLoop], 0, by simp [notifyLoop]⟩
    | succ m =>
      by_cases hd : w.done = true
      · have h1 : notifyLoop (m + 1) (w :: rest) = notifyLoop (m + 1) rest := by
          simp [notifyLoop, hd]
        obtain ⟨hw, k, hrem, hwk⟩ := ih (m + 1)
        refine ⟨?_, k + 1, ?_, ?_⟩
        · rw [h1, hw, List.filter_cons_of_neg (by simp [hd])]
        · rw [h1, hrem]; rfl
        · rw [h1, hwk, List.take_succ_cons, List.filter_cons_of_neg (by simp [hd])]
      · have hd' : w.done = false := by simp_all
        have h1 : notifyLoop (m + 1) (w :: rest) =
            (w :: (notifyLoop m rest).1, (notifyLoop m rest).2) := by
          simp [notifyLoop, hd']
        obtain ⟨hw, k, hrem, hwk⟩ := ih m
        refine ⟨?_, k + 1, ?_, ?_⟩
        · rw [h1, List.filter_cons_of_pos (by simp [hd'])]
          simp only [List.take_succ_cons]
          rw [hw]
        · rw [h1]; simpa using hrem
        · rw [h1, List.take_succ_cons, List.filter_cons_of_pos (by simp [hd'])]
          simpa using hwk

/-- Claim C6: for every Condition state and every `n`, `notify(n)` resolves
to `True` exactly `min(n, liveWaiterCount)` waiters, chosen in FIFO arrival
order while skipping already-resolved entries, and removes exactly the
scanned prefix of the deque. -/
theorem c6_notify_min_fifo (n : Nat) (ws : List CWaiter) (t nid : Nat)
    (lg : List (Nat × Bool)) :
    (notifyLoop n ws).1 = (ws.filter (fun w => !w.done)).take n ∧
    (notifyLoop n ws).1.length = min n (ws.filter (fun w => !w.done)).length ∧
    (∃ k, (notifyLoop n ws).2 = ws.drop k ∧
      (notifyLoop n ws).1 = (ws.take k).filter (fun w => !w.done)) ∧
    (Cond.notify n ⟨ws, t, nid, lg⟩).log =
      lg ++ ((ws.filter (fun w => !w.done)).take n).map (fun w => (w.id, true)) ∧
    (Cond.notify n ⟨ws, t, nid, lg⟩).waiters = (notifyLoop n ws).2 := by
  obtain ⟨hw, k, hrem, hwk⟩ := notifyLoop_spec n ws
  refine ⟨hw, ?_, ⟨k, hrem, hwk⟩, ?_, ?_⟩
  · rw [hw, List.length_take]
  · simp only [Cond.notify]
    rw [hw]
  · simp only [Cond.notify]

/-- Claim C7: `BoundedSemaphore.release` fails exactly when the value has
already reached the initial value (the check precedes any mutation);
`Lock.release` translates that `ValueError` into the distinct
`RuntimeError('release unlocked lock')`, so releasing a never-acquired or
an already-released `Lock` fails with the unlocked-lock error. -/
theorem c7_bounded_release_lock :
    (∀ (initial : Int) (s : Sem), boundedRelease initial s = none ↔ initial ≤ s.value) ∧
    (∀ s : Sem, boundedRelease 1 s = none →
      lockRelease s = Except.error LockErr.releaseUnlocked) ∧
    lockRelease lockNew = Except.error LockErr.releaseUnlocked ∧
    (∃ s2, lockRelease (Sem.acquire none lockNew).1 = Except.ok s2 ∧
      lockRelease s2 = Except.error LockErr.releaseUnlocked) := by
  refine ⟨?_, ?_, ?_, ?_⟩
  · intro initial s
    unfold boundedRelease
    split <;> simp_all
  · intro s h
    unfold lockRelease
    rw [h]
  · rfl
  · exact ⟨_, rfl, rfl⟩

/-- Witness for C7: releasing a fresh (never-acquired) `Lock` fails with
the unlocked-lock error, via the `ValueError`-to-`RuntimeError`
translation. -/
theorem c7_bounded_release_lock_witness :
    lockRelease lockNew = Except.error LockErr.releaseUnlocked :=
  c7_bounded_release_lock.2.1 lockNew (by rfl)

/-- Claim C8: the ordering laws of the three queue variants on concrete
inputs: FIFO returns `1,2,3` in insertion order, LIFO returns `3,2,1`, and
the priority queue returns `(0,b), (1,a), (2,c)` in ascending key order. -/
theorem c8_ordering_laws :
    getsQ ltNat .fifo 3 (putsQ ltNat .fifo [1, 2, 3] (initQ 0)) = [1, 2, 3] ∧
    getsQ ltNat .lifo 3 (putsQ ltNat .lifo [1, 2, 3] (initQ 0)) = [3, 2, 1] ∧
    getsQ ltNC .prio 3
        (putsQ ltNC .prio [(1, 'a'), (0, 'b'), (2, 'c')] (initQ 0)) =
      [(0, 'b'), (1, 'a'), (2, 'c')] := by
  refine ⟨?_, ?_, ?_⟩ <;> decide

/-- Claim C9: a queue constructed with `maxsize=0` never raises `QueueFull`
from `put_nowait`, whatever its state and whatever the item. -/
theorem c9_unbounded_never_full {α : Type} (lt : α → α → Bool) (st : Strat)
    (s : Q α) (x : α) (h : s.maxsize = 0) :
    (putNowait lt st x s).2 = true := by
  have hm : (consumeExpired s).maxsize = 0 := h
  unfold putNowait
  cases hg : (consumeExpired s).getters with
  | cons g grest =>
    simp only [hg]
    cases hsg : stratGet lt st
        (putInternal lt st x { consumeExpired s with getters := grest }).queue with
    | some yq => cases yq with | mk y q2 => simp [hsg]
    | none => simp [hsg]
  | nil =>
    simp only [hg, hm]
    simp

/-- Witness for C9 on a concrete unbounded queue state. -/
theorem c9_unbounded_never_full_witness :
    (putNowait ltNat .fifo 7 (putsQ ltNat .fifo [1, 2, 3] (initQ 0))).2 = true :=
  c9_unbounded_never_full ltNat .fifo (putsQ ltNat .fifo [1, 2, 3] (initQ 0)) 7 rfl

/-- Draining the permits: starting from `Semaphore(P)`, `P` acquires
succeed immediately, leaving value 0 and no waiters. -/
theorem acquire_drain (P : Nat) (t nid : Nat) (lg : List (Nat × SemRes)) :
    (applySemOp (SemOp.acquire none))^[P] ⟨(P : Int), [], t, nid, lg⟩ =
      ⟨0, [], t, nid, lg⟩ := by
  induction P with
  | zero => simp
  | succ m ih =>
    rw [Function.iterate_succ_apply]
    have h1 : applySemOp (SemOp.acquire none) ⟨((m + 1 : Nat) : Int), [], t, nid, lg⟩ =
        ⟨(m : Int), [], t, nid, lg⟩ := by
      have hpos : (0 : Int) < ((m + 1 : Nat) : Int) := by positivity
      simp only [applySemOp, Sem.acquire, hpos, if_pos]
      congr 1
      push_cast
      ring
    rw [h1, ih]

/-- With no permits left, every further acquire (no timeout) enqueues a
fresh unregistered waiter, in id order. -/
theorem acquire_fill (N : Nat) (s : Sem) (h : s.value = 0) :
    (applySemOp (SemOp.acquire none))^[N] s =
      { s with
          waiters := s.waiters ++
            (List.range' s.nextId N).map (fun i => ⟨i, false, false⟩),
          nextId := s.nextId + N } := by
  induction N generalizing s with
  | zero => simp
  | succ m ih =>
    rw [Function.iterate_succ_apply]
    have h1 : applySemOp (SemOp.acquire none) s =
        { s with waiters := s.waiters ++ [⟨s.nextId, false, false⟩],
                 nextId := s.nextId + 1 } := by
      have : ¬ (0 : Int) < s.value := by rw [h]; omega
      simp [applySemOp, Sem.acquire, this, truthy]
    rw [h1, ih _ (by simp [h])]
    simp only [List.range'_succ]
    congr 1
    · simp [List.append_assoc]
    · omega

/-- Releasing with value 0 and a live waiter at the front resolves exactly
that waiter and keeps the value at 0. -/
theorem release_front (a : Nat) (rest : List SWaiter) (t nid : Nat)
    (lg : List (Nat × SemRes)) :
    applySemOp SemOp.release ⟨0, ⟨a, false, false⟩ :: rest, t, nid, lg⟩ =
      ⟨0, rest, t, nid, lg ++ [(a, SemRes.handle)]⟩ := by
  simp [applySemOp, Sem.release, releaseLoop]

/-- Performing `k ≤ N` releases against `N` pending live waiters with ids
`a, a+1, ...` resolve the first `k` of them in id order, never letting the
value leave 0. -/
theorem release_consume (k : Nat) :
    ∀ (N a : Nat) (t nid : Nat) (lg : List (Nat × SemRes)), k ≤ N →
    (applySemOp SemOp.release)^[k]
        ⟨0, (List.range' a N).map (fun i => ⟨i, false, false⟩), t, nid, lg⟩ =
      ⟨0, (List.range' (a + k) (N - k)).map (fun i => ⟨i, false, false⟩), t, nid,
        lg ++ (List.range' a k).map (fun i => (i, SemRes.handle))⟩ := by
  induction k with
  | zero => intro N a t nid lg _; simp
  | succ m ih =>
    intro N a t nid lg hk
    cases N with
    | zero => omega
    | succ M =>
      rw [Function.iterate_succ_apply]
      rw [show List.range' a (M + 1) = a :: List.range' (a + 1) M from
        List.range'_succ a M 1]
      simp only [List.map_cons]
      rw [release_front, ih M (a + 1) t nid _ (by omega)]
      have e1 : a + 1 + m = a + (m + 1) := by omega
      have e2 : M - m = M + 1 - (m + 1) := by omega
      rw [e1, e2, show List.range' a (m + 1) = a :: List.range' (a + 1) m from
        List.range'_succ a m 1]
      simp [List.append_assoc]

/-- Claim C2: starting from `Semaphore(P)`, `P + N` acquires exhaust the
permits and enqueue `N` waiters with ids `0..N-1`; each of the following
`k ≤ N` releases hands its permit directly to the oldest live waiter — the
resolution log lists ids `0..k-1` in request order (waiter `i` resolves
strictly before waiter `i+1`) and the value stays 0 throughout, so no
permit is ever left stealable in between. -/
theorem c2_semaphore_fifo (P N k : Nat) (hk : k ≤ N) :
    runSem (List.replicate (P + N) (SemOp.acquire none) ++
        List.replicate k SemOp.release) (Sem.init P) =
      ⟨0, (List.range' k (N - k)).map (fun i => ⟨i, false, false⟩), 0, N,
        (List.range k).map (fun i => (i, SemRes.handle))⟩ := by
  rw [runSem_append, runSem_replicate, runSem_replicate]
  rw [show P + N = N + P from by omega, Function.iterate_add_apply]
  rw [show Sem.init P = ⟨(P : Int), [], 0, 0, []⟩ from rfl, acquire_drain]
  rw [acquire_fill N _ rfl]
  have h := release_consume k N 0 0 (0 + N) [] hk
  simp only [Nat.zero_add, List.nil_append] at h ⊢
  rw [h, List.range_eq_range']

/-- Witness for C2: two permits, three blocked acquirers, two releases —
waiters 0 and 1 resolve in order, waiter 2 still queued, value still 0. -/
theorem c2_semaphore_fifo_witness :
    runSem (List.replicate (2 + 3) (SemOp.acquire none) ++
        List.replicate 2 SemOp.release) (Sem.init 2) =
      ⟨0, [⟨2, false, false⟩], 0, 3, [(0, SemRes.handle), (1, SemRes.handle)]⟩ := by
  have h := c2_semaphore_fifo 2 3 2 (by omega)
  rw [h]
  decide

/-- The `release` scan decrements the incoming value at most once. -/
theorem releaseLoop_bounds (ws : List SWaiter) (v : Int) :
    v - 1 ≤ (releaseLoop v ws).1 ∧ (releaseLoop v ws).1 ≤ v := by
  induction ws with
  | nil => simp [releaseLoop]
  | cons w rest ih =>
    by_cases hd : w.done = true
    · simpa [releaseLoop, hd] using ih
    · simp [releaseLoop, hd]

/-- A timeout firing never changes the permit counter. -/
theorem fire_value (i : Nat) (s : Sem) : (Sem.fire i s).value = s.value := by
  unfold Sem.fire
  split
  · dsimp only
  · rfl

/-- Python `acquire` never makes the value negative and never increases it. -/
theorem acquire_value_bounds (t : Option Int) (s : Sem) (h : 0 ≤ s.value) :
    0 ≤ ((Sem.acquire t s).1).value ∧ ((Sem.acquire t s).1).value ≤ s.value := by
  simp only [Sem.acquire]
  split
  · rename_i hv
    refine ⟨?_, ?_⟩
    · show (0 : Int) ≤ s.value - 1
      omega
    · show s.value - 1 ≤ s.value
      omega
  · simpa using h

/-- Python `release` increases the value by at most one and never decreases it. -/
theorem release_value_bounds (s : Sem) :
    s.value ≤ (Sem.release s).value ∧ (Sem.release s).value ≤ s.value + 1 := by
  simp only [Sem.release]
  have hb := releaseLoop_bounds s.waiters (s.value + 1)
  rcases hrl : releaseLoop (s.value + 1) s.waiters with ⟨v, ws, r⟩
  rw [hrl] at hb
  dsimp only at hb ⊢
  constructor <;> omega

/-- Claim C4: after every sequence of acquire/release (and timeout-firing)
events, the unbounded semaphore's value satisfies `0 ≤ value`, and every
non-failing such sequence on a `BoundedSemaphore` keeps
`0 ≤ value ≤ initial`. -/
theorem c4_semaphore_value_bounds (v : Nat) (ops : List SemOp) :
    0 ≤ (runSem ops (Sem.init v)).value ∧
    ∀ s2, runBdd (v : Int) ops (Sem.init v) = some s2 →
      0 ≤ s2.value ∧ s2.value ≤ (v : Int) := by
  constructor
  · refine foldl_preserve (fun s : Sem => 0 ≤ s.value) _ ?_ ops _ (by simp [Sem.init])
    intro s op h
    cases op with
    | acquire t => exact (acquire_value_bounds t s h).1
    | release =>
      have hb := release_value_bounds s
      show 0 ≤ (Sem.release s).value
      omega
    | fire i =>
      show 0 ≤ (Sem.fire i s).value
      rw [fire_value]
      exact h
  · refine foldl_preserve
      (fun o : Option Sem => ∀ s2, o = some s2 → 0 ≤ s2.value ∧ s2.value ≤ (v : Int))
      _ ?_ ops (some (Sem.init v)) ?_
    · intro o op h
      cases o with
      | none => intro s2 h2; cases h2
      | some s =>
        have hs := h s rfl
        intro s2 h2
        have h2' : applyBddOp (v : Int) op s = some s2 := h2
        cases op with
        | acquire t =>
          have h3 : (Sem.acquire t s).1 = s2 := by
            simpa [applyBddOp] using h2'
          subst h3
          have hb := acquire_value_bounds t s hs.1
          exact ⟨hb.1, le_trans hb.2 hs.2⟩
        | release =>
          simp only [applyBddOp, boundedRelease] at h2'
          split at h2'
          · cases h2'
          · rename_i hlt
            have h3 : Sem.release s = s2 := by simpa using h2'
            subst h3
            have hb := release_value_bounds s
            constructor <;> omega
        | fire i =>
          have h3 : Sem.fire i s = s2 := by simpa [applyBddOp] using h2'
          subst h3
          rw [fire_value]
          exact hs
    · intro s2 h2
      have h3 : Sem.init v = s2 := by simpa using h2
      subst h3
      refine ⟨by simp [Sem.init], by simp [Sem.init]⟩

/-- Witness for C4 on a concrete event sequence over `BoundedSemaphore(1)`
(both runs end at value 1, inside the bounds). -/
theorem c4_semaphore_value_bounds_witness :
    0 ≤ (runSem [SemOp.acquire none, SemOp.release] (Sem.init 1)).value ∧
    0 ≤ (Sem.mk 1 [] 0 0 []).value ∧ (Sem.mk 1 [] 0 0 []).value ≤ ((1 : Nat) : Int) :=
  ⟨(c4_semaphore_value_bounds 1 [SemOp.acquire none, SemOp.release]).1,
    (c4_semaphore_value_bounds 1 [SemOp.acquire none, SemOp.release]).2
      (Sem.mk 1 [] 0 0 []) (by decide)⟩

/-- The `_siftdown` loop preserves the length of the heap list. -/
theorem siftdownLoop_length (lt : α → α → Bool) (x : α) (sp : Nat) :
    ∀ (fuel pos : Nat) (heap : List α),
      (siftdownLoop lt x sp fuel pos heap).length = heap.length := by
  intro fuel
  induction fuel with
  | zero => intro pos heap; simp [siftdownLoop]
  | succ m ih =>
    intro pos heap
    simp only [siftdownLoop]
    split
    · split
      · rw [ih]; simp
      · simp
    · simp

/-- A `heappush` grows the heap by one element. -/
theorem heappush_length (lt : α → α → Bool) (heap : List α) (x : α) :
    (heappush lt heap x).length = heap.length + 1 := by
  simp [heappush, siftdownLoop_length]

/-- Inserting through any ordering strategy leaves the storage non-empty. -/
theorem stratPut_ne_nil (lt : α → α → Bool) (st : Strat) (x : α) (q : List α) :
    stratPut lt st x q ≠ [] := by
  cases st with
  | fifo => simp [stratPut]
  | lifo => simp [stratPut]
  | prio =>
    intro hc
    have := congrArg List.length hc
    simp only [stratPut, heappush_length] at this
    simp at this

/-- Extracting through any ordering strategy succeeds on non-empty
storage. -/
theorem stratGet_some (lt : α → α → Bool) (st : Strat) (q : List α)
    (h : q ≠ []) : ∃ y q2, stratGet lt st q = some (y, q2) := by
  cases st with
  | fifo =>
    cases q with
    | nil => exact absurd rfl h
    | cons a r => exact ⟨a, r, rfl⟩
  | lifo =>
    obtain ⟨x, hx⟩ := Option.isSome_iff_exists.mp (List.getLast?_isSome.mpr h)
    exact ⟨x, q.dropLast, by simp [stratGet, hx]⟩
  | prio =>
    obtain ⟨x, hx⟩ := Option.isSome_iff_exists.mp (List.getLast?_isSome.mpr h)
    cases hd : q.dropLast with
    | nil => exact ⟨x, [], by simp [stratGet, heappop, hx, hd]⟩
    | cons r0 rr =>
      have hs : stratGet lt .prio q =
          some (r0, siftupLoop lt x 0 (r0 :: rr).length (r0 :: rr).length 0
            ((r0 :: rr).set 0 x)) := by
        simp only [stratGet, heappop, hx, hd]
      exact ⟨r0, _, hs⟩

/-- Claim C1: when a putter is pending, `get_nowait` pops the oldest
putter pair, inserts its item through the ordering strategy, resolves the
putter, and then extracts-and-returns through the strategy — a re-query of
storage, not a direct handoff.  Consequently, on the concrete priority
queue `c1State` (storage holds `(0,y)`, the blocked putter supplied
`(5,x)`), the getter receives `(0,y)`: a different, higher-priority item
than the one the matching putter just supplied. -/
theorem c1_rendezvous_requery {α : Type} (lt : α → α → Bool) (st : Strat)
    (s : Q α) (item : α) (pw : QWaiter) (prest : List (α × QWaiter))
    (h : (consumeExpired s).putters = (item, pw) :: prest) :
    (∃ y q2,
      stratGet lt st (stratPut lt st item (consumeExpired s).queue) = some (y, q2) ∧
      getNowait lt st s =
        ({ consumeExpired s with
            queue := q2,
            putters := prest,
            unfinished := (consumeExpired s).unfinished + 1,
            finished := false,
            log := (consumeExpired s).log ++ [(pw.id, QLog.putOk)] }, some y)) ∧
    ((getNowait ltNC .prio c1State).2 = some (0, 'y') ∧
      c1State.putters.map Prod.fst = [(5, 'x')] ∧
      ((0, 'y') : Nat × Char) ≠ (5, 'x') ∧ ltNC (0, 'y') (5, 'x') = true) := by
  constructor
  · obtain ⟨y, q2, hget⟩ :=
      stratGet_some lt st _ (stratPut_ne_nil lt st item (consumeExpired s).queue)
    refine ⟨y, q2, hget, ?_⟩
    simp only [getNowait, h, putInternal]
    rw [hget]
  · exact ⟨by decide, by decide, by decide, by decide⟩

/-- Witness for C1: the priority rendezvous on `c1State` delivers the
stored high-priority item, not the putter's. -/
theorem c1_rendezvous_requery_witness :
    (getNowait ltNC .prio c1State).2 = some (0, 'y') :=
  (c1_rendezvous_requery ltNC .prio c1State (5, 'x') ⟨0, false, false⟩ []
    (by decide)).2.1

/-- Python `_consume_expired` only touches the waiter deques: `maxsize`. -/
@[simp]
theorem consumeExpired_maxsize {α : Type} (s : Q α) :
    (consumeExpired s).maxsize = s.maxsize := rfl

/-- Python `_consume_expired` only touches the waiter deques: storage. -/
@[simp]
theorem consumeExpired_queue {α : Type} (s : Q α) :
    (consumeExpired s).queue = s.queue := rfl

/-- Python `_consume_expired` only touches the waiter deques: task counter. -/
@[simp]
theorem consumeExpired_unfinished {α : Type} (s : Q α) :
    (consumeExpired s).unfinished = s.unfinished := rfl

/-- Python `_consume_expired` only touches the waiter deques: completion gate. -/
@[simp]
theorem consumeExpired_finished {α : Type} (s : Q α) :
    (consumeExpired s).finished = s.finished := rfl

/-- Python `_consume_expired` only touches the waiter deques: identity counter. -/
@[simp]
theorem consumeExpired_nextId {α : Type} (s : Q α) :
    (consumeExpired s).nextId = s.nextId := rfl

/-- Python `_consume_expired` only touches the waiter deques: resolution log. -/
@[simp]
theorem consumeExpired_log {α : Type} (s : Q α) :
    (consumeExpired s).log = s.log := rfl

/-- A successful `put_nowait` increments `_unfinished_tasks` and clears
the completion gate. -/
theorem putNowait_tasks {α : Type} (lt : α → α → Bool) (st : Strat) (x : α)
    (s : Q α) (hsucc : (putNowait lt st x s).2 = true) :
    (putNowait lt st x s).1.unfinished = s.unfinished + 1 ∧
    (putNowait lt st x s).1.finished = false := by
  unfold putNowait at hsucc ⊢
  cases hg : (consumeExpired s).getters with
  | cons g grest =>
    simp only [hg]
    cases hsg : stratGet lt st
        (putInternal lt st x { consumeExpired s with getters := grest }).queue with
    | some yq => cases yq with | mk y q2 => simp [hsg, putInternal]
    | none => simp [hsg, putInternal]
  | nil =>
    simp only [hg] at hsucc ⊢
    split at hsucc
    · simp at hsucc
    · rename_i hfull
      simp only [if_neg hfull]
      simp [putInternal]

/-- A state whose task counter was just incremented and whose gate was
just cleared satisfies the task-tracking invariant. -/
theorem qtasks_of_inc {α : Type} (s2 : Q α) (u : Int) (hu : 0 ≤ u)
    (h1 : s2.unfinished = u + 1) (h2 : s2.finished = false) : QTasks s2 := by
  refine ⟨by omega, ?_⟩
  rw [h1, h2]
  constructor
  · intro hq
    exact absurd hq (by simp)
  · intro hq
    exact absurd hq (by omega)

/-- Python `put_nowait` preserves the task-tracking invariant. -/
theorem putNowait_qtasks {α : Type} (lt : α → α → Bool) (st : Strat) (x : α)
    (s : Q α) (h : QTasks s) : QTasks (putNowait lt st x s).1 := by
  have hc : QTasks (consumeExpired s) := h
  unfold putNowait
  cases hg : (consumeExpired s).getters with
  | cons g grest =>
    simp only [hg]
    cases hsg : stratGet lt st
        (putInternal lt st x { consumeExpired s with getters := grest }).queue with
    | some yq =>
      cases yq with
      | mk y q2 =>
        simp only [hsg]
        exact qtasks_of_inc _ s.unfinished h.1 rfl rfl
    | none =>
      simp only [hsg]
      exact qtasks_of_inc _ s.unfinished h.1 rfl rfl
  | nil =>
    simp only [hg]
    split
    · exact hc
    · exact qtasks_of_inc _ s.unfinished h.1 rfl rfl

/-- Python `get_nowait` preserves the task-tracking invariant. -/
theorem getNowait_qtasks {α : Type} (lt : α → α → Bool) (st : Strat)
    (s : Q α) (h : QTasks s) : QTasks (getNowait lt st s).1 := by
  have hc : QTasks (consumeExpired s) := h
  unfold getNowait
  cases hp : (consumeExpired s).putters with
  | cons ip prest =>
    cases ip with
    | mk item putter =>
      simp only [hp]
      cases hsg : stratGet lt st
          (putInternal lt st item { consumeExpired s with putters := prest }).queue with
      | some yq =>
        cases yq with
        | mk y q2 =>
          simp only [hsg]
          exact qtasks_of_inc _ s.unfinished h.1 rfl rfl
      | none =>
        simp only [hsg]
        exact qtasks_of_inc _ s.unfinished h.1 rfl rfl
  | nil =>
    simp only [hp]
    cases hsg : stratGet lt st (consumeExpired s).queue with
    | some yq => cases yq with | mk y q2 => simpa only [hsg] using hc
    | none => simpa only [hsg] using hc

/-- Python `task_done` preserves the task-tracking invariant. -/
theorem taskDone_qtasks {α : Type} (s : Q α) (h : QTasks s) :
    QTasks (taskDone s).1 := by
  unfold taskDone
  split
  · exact h
  · rename_i hpos
    constructor
    · simp only
      omega
    · simp only
      split
      · rename_i hz
        simpa using hz
      · rename_i hz
        constructor
        · intro hf
          exact absurd (h.2.mp hf) (by omega)
        · intro hq
          exact absurd hq hz

/-- Every queue event preserves the task-tracking invariant. -/
theorem qtasks_step {α : Type} (lt : α → α → Bool) (st : Strat) (op : QOp α)
    (s : Q α) (h : QTasks s) : QTasks (applyQOp lt st op s) := by
  cases op with
  | putNowait x => exact putNowait_qtasks lt st x s h
  | put x t =>
    show QTasks (put lt st x t s).1
    have hp := putNowait_qtasks lt st x s h
    unfold put
    rcases hpn : putNowait lt st x s with ⟨s1, ok⟩
    rw [hpn] at hp
    cases ok with
    | true => simpa using hp
    | false =>
      simp only [QTasks] at hp ⊢
      simpa using hp
  | getNowait => exact getNowait_qtasks lt st s h
  | get t =>
    show QTasks (getQ lt st t s).1
    have hp := getNowait_qtasks lt st s h
    unfold getQ
    rcases hgn : getNowait lt st s with ⟨s1, r⟩
    rw [hgn] at hp
    cases r with
    | some x => simpa using hp
    | none =>
      simp only [QTasks] at hp ⊢
      simpa using hp
  | taskDone => exact taskDone_qtasks s h
  | fireGetter i =>
    show QTasks (fireGetter i s)
    unfold fireGetter
    split <;> exact h
  | firePutter i =>
    show QTasks (firePutter i s)
    unfold firePutter
    split <;> exact h

/-- Claim C5: on every reachable queue state, `task_done` fails with the
over-completion error exactly when `_unfinished_tasks` is zero; otherwise
it decrements the counter (which therefore never goes below zero) and sets
the completion gate exactly when the counter reaches zero; and every
successful `put_nowait` increments the counter and clears the gate. -/
theorem c5_task_done_tracking {α : Type} (lt : α → α → Bool) (st : Strat)
    (m : Nat) (ops : List (QOp α)) :
    0 ≤ (runQ lt st ops (initQ m)).unfinished ∧
    ((taskDone (runQ lt st ops (initQ m))).2 = false ↔
      (runQ lt st ops (initQ m)).unfinished = 0) ∧
    ((runQ lt st ops (initQ m)).unfinished ≠ 0 →
      (taskDone (runQ lt st ops (initQ m))).1.unfinished =
        (runQ lt st ops (initQ m)).unfinished - 1 ∧
      ((taskDone (runQ lt st ops (initQ m))).1.finished = true ↔
        (runQ lt st ops (initQ m)).unfinished - 1 = 0)) ∧
    ∀ x, (putNowait lt st x (runQ lt st ops (initQ m))).2 = true →
      (putNowait lt st x (runQ lt st ops (initQ m))).1.unfinished =
        (runQ lt st ops (initQ m)).unfinished + 1 ∧
      (putNowait lt st x (runQ lt st ops (initQ m))).1.finished = false := by
  have hI : QTasks (runQ lt st ops (initQ m)) := by
    refine foldl_preserve QTasks _ ?_ ops (initQ m) ?_
    · intro s op h
      exact qtasks_step lt st op s h
    · exact ⟨by simp [initQ], by simp [initQ]⟩
  obtain ⟨h0, hgate⟩ := hI
  set s := runQ lt st ops (initQ m)
  refine ⟨h0, ?_, ?_, ?_⟩
  · by_cases hz : s.unfinished ≤ 0
    · have ht : taskDone s = (s, false) := by simp [taskDone, hz]
      rw [ht]
      constructor
      · intro _
        omega
      · intro _
        rfl
    · have ht : taskDone s =
          ⟨{ s with
              unfinished := s.unfinished - 1,
              finished := if s.unfinished - 1 = 0 then true else s.finished },
            true⟩ := by
        simp [taskDone, hz]
      rw [ht]
      constructor
      · intro hfalse
        exact absurd hfalse (by simp)
      · intro hq
        omega
  · intro hne
    have hz : ¬ s.unfinished ≤ 0 := by omega
    have ht : taskDone s =
        ⟨{ s with
            unfinished := s.unfinished - 1,
            finished := if s.unfinished - 1 = 0 then true else s.finished },
          true⟩ := by
      simp [taskDone, hz]
    rw [ht]
    refine ⟨rfl, ?_⟩
    by_cases hzz : s.unfinished - 1 = 0
    · simp [hzz]
    · simp only [if_neg hzz]
      constructor
      · intro hf
        exact absurd (hgate.mp hf) (by omega)
      · intro hq
        exact absurd hq hzz
  · intro x hx
    exact putNowait_tasks lt st x s hx

/-- Witness for C5: after a single `put_nowait` the counter is 1 and a
`task_done` succeeds, returning it to 0 and setting the gate. -/
theorem c5_task_done_tracking_witness :
    (taskDone (runQ ltNat .fifo [QOp.putNowait 5] (initQ 0))).1.unfinished =
      (runQ ltNat .fifo [QOp.putNowait 5] (initQ 0)).unfinished - 1 ∧
    ((taskDone (runQ ltNat .fifo [QOp.putNowait 5] (initQ 0))).1.finished = true ↔
      (runQ ltNat .fifo [QOp.putNowait 5] (initQ 0)).unfinished - 1 = 0) :=
  (c5_task_done_tracking ltNat .fifo 0 [QOp.putNowait 5]).2.2.1 (by decide)

/-- GC compaction only removes entries, never adds them. -/
theorem garbageCollectL_mem {W : Type} (done : W → Bool) (ws : List W)
    (t : Nat) (ws2 : List W) (t2 : Nat)
    (h : garbageCollectL done ws t = (ws2, t2)) : ∀ w ∈ ws2, w ∈ ws := by
  simp only [garbageCollectL] at h
  split at h
  · cases h
    intro w hw
    exact List.mem_of_mem_filter hw
  · cases h
    intro w hw
    exact hw

/-- The waiter resolved by the `release` scan comes from the deque. -/
theorem releaseLoop_some_mem (ws : List SWaiter) :
    ∀ (v v2 : Int) (ws2 : List SWaiter) (i : Nat),
      releaseLoop v ws = (v2, ws2, some i) → ∃ w ∈ ws, w.id = i := by
  induction ws with
  | nil =>
    intro v v2 ws2 i h
    simp [releaseLoop] at h
  | cons w rest ih =>
    intro v v2 ws2 i h
    by_cases hd : w.done = true
    · simp only [releaseLoop, hd, if_true] at h
      obtain ⟨w2, hm, hid⟩ := ih v v2 ws2 i h
      exact ⟨w2, List.mem_cons_of_mem _ hm, hid⟩
    · simp only [releaseLoop, hd, if_false] at h
      refine ⟨w, List.mem_cons_self w rest, ?_⟩
      have h3 : some w.id = some i := congrArg (fun p => p.2.2) h
      exact Option.some.inj h3

/-- The deque left by the `release` scan is a subset of the original. -/
theorem releaseLoop_rest_mem (ws : List SWaiter) :
    ∀ (v v2 : Int) (ws2 : List SWaiter) (r : Option Nat),
      releaseLoop v ws = (v2, ws2, r) → ∀ w2 ∈ ws2, w2 ∈ ws := by
  induction ws with
  | nil =>
    intro v v2 ws2 r h
    simp only [releaseLoop] at h
    cases h
    intro w2 hm
    cases hm
  | cons w rest ih =>
    intro v v2 ws2 r h
    by_cases hd : w.done = true
    · simp only [releaseLoop, hd, if_true] at h
      intro w2 hm
      exact List.mem_cons_of_mem _ (ih v v2 ws2 r h w2 hm)
    · simp only [releaseLoop, hd, if_false] at h
      have h2 := congrArg (fun p => p.2.1) h
      simp only at h2
      intro w2 hm
      rw [← h2] at hm
      exact List.mem_cons_of_mem _ hm

/-- Every semaphore event preserves identity freshness. -/
theorem semFresh_step (op : SemOp) (s : Sem) (h : SemFresh s) :
    SemFresh (applySemOp op s) := by
  obtain ⟨hw, hl⟩ := h
  cases op with
  | acquire t =>
    show SemFresh (Sem.acquire t s).1
    unfold Sem.acquire
    split
    · exact ⟨hw, hl⟩
    · refine ⟨?_, ?_⟩
      · intro w hm
        simp only [List.mem_append, List.mem_singleton] at hm
        cases hm with
        | inl h1 => exact Nat.lt_succ_of_lt (hw w h1)
        | inr h2 =>
          subst h2
          exact Nat.lt_succ_self _
      · intro p hm
        exact Nat.lt_succ_of_lt (hl p hm)
  | release =>
    show SemFresh (Sem.release s)
    unfold Sem.release
    rcases hrl : releaseLoop (s.value + 1) s.waiters with ⟨v, ws2, r⟩
    refine ⟨?_, ?_⟩
    · intro w hm
      exact hw w (releaseLoop_rest_mem s.waiters _ _ _ _ hrl w hm)
    · cases r with
      | none => exact hl
      | some i =>
        intro p hm
        simp only [List.mem_append, List.mem_singleton] at hm
        cases hm with
        | inl h1 => exact hl p h1
        | inr h2 =>
          subst h2
          obtain ⟨w, hwm, hwi⟩ := releaseLoop_some_mem s.waiters _ _ _ _ hrl
          simpa [← hwi] using hw w hwm
  | fire i =>
    show SemFresh (Sem.fire i s)
    unfold Sem.fire
    split
    · rename_i hany
      dsimp only
      rcases hgc : garbageCollectL (fun w => w.done)
          (s.waiters.map (fun w => if w.id == i then { w with done := true } else w))
          s.timeouts with ⟨ws2, t2⟩
      rw [hgc]
      refine ⟨?_, ?_⟩
      · intro w hm
        have hm2 := garbageCollectL_mem _ _ _ _ _ hgc w hm
        obtain ⟨w0, hw0, hfw⟩ := List.mem_map.mp hm2
        have hid : w.id = w0.id := by
          subst hfw
          by_cases hb : (w0.id == i) = true <;> simp [hb]
        rw [hid]
        exact hw w0 hw0
      · intro p hm
        simp only [List.mem_append, List.mem_singleton] at hm
        cases hm with
        | inl h1 => exact hl p h1
        | inr h2 =>
          subst h2
          obtain ⟨w, hwm, hcond⟩ := List.any_eq_true.mp hany
          have : w.id = i := by
            simp only [Bool.and_eq_true, beq_iff_eq] at hcond
            exact hcond.1.1
          simpa [← this] using hw w hwm
    · exact ⟨hw, hl⟩

/-- Every semaphore event preserves the no-timeout safety of waiter
`wid`. -/
theorem semSafe_step (wid : Nat) (op : SemOp) (s : Sem) (h : SemSafe wid s) :
    SemSafe wid (applySemOp op s) := by
  obtain ⟨hreg, hlog, hid⟩ := h
  cases op with
  | acquire t =>
    show SemSafe wid (Sem.acquire t s).1
    unfold Sem.acquire
    split
    · exact ⟨hreg, hlog, hid⟩
    · refine ⟨?_, hlog, Nat.lt_succ_of_lt hid⟩
      intro w hm hwid
      simp only [List.mem_append, List.mem_singleton] at hm
      cases hm with
      | inl h1 => exact hreg w h1 hwid
      | inr h2 =>
        subst h2
        simp only at hwid
        omega
  | release =>
    show SemSafe wid (Sem.release s)
    unfold Sem.release
    rcases hrl : releaseLoop (s.value + 1) s.waiters with ⟨v, ws2, r⟩
    refine ⟨?_, ?_, hid⟩
    · intro w hm hwid
      exact hreg w (releaseLoop_rest_mem s.waiters _ _ _ _ hrl w hm) hwid
    · cases r with
      | none => exact hlog
      | some i =>
        intro hm
        simp only [List.mem_append, List.mem_singleton] at hm
        cases hm with
        | inl h1 => exact hlog h1
        | inr h2 => cases h2
  | fire i =>
    show SemSafe wid (Sem.fire i s)
    unfold Sem.fire
    split
    · rename_i hany
      dsimp only
      rcases hgc : garbageCollectL (fun w => w.done)
          (s.waiters.map (fun w => if w.id == i then { w with done := true } else w))
          s.timeouts with ⟨ws2, t2⟩
      have hne : i ≠ wid := by
        intro hiw
        subst hiw
        obtain ⟨w, hwm, hcond⟩ := List.any_eq_true.mp hany
        simp only [Bool.and_eq_true, beq_iff_eq, Bool.not_eq_true'] at hcond
        have := hreg w hwm hcond.1.1
        rw [this] at hcond
        exact Bool.false_ne_true hcond.1.2
      rw [hgc]
      refine ⟨?_, ?_, hid⟩
      · intro w hm hwid
        have hm2 := garbageCollectL_mem _ _ _ _ _ hgc w hm
        obtain ⟨w0, hw0, hfw⟩ := List.mem_map.mp hm2
        by_cases hb : (w0.id == i) = true
        · have hw0id : w0.id = i := by simpa using hb
          subst hfw
          simp only [hb, if_true] at hwid ⊢
          exact absurd (hwid ▸ hw0id : wid = i) (fun hh => hne hh.symm)
        · subst hfw
          simp only [hb, if_false] at hwid ⊢
          exact hreg w0 hw0 hwid
      · intro hm
        simp only [List.mem_append, List.mem_singleton] at hm
        cases hm with
        | inl h1 => exact hlog h1
        | inr h2 =>
          have hwi : wid = i := congrArg Prod.fst h2
          exact hne hwi.symm
    · exact ⟨hreg, hlog, hid⟩

/-- A blocked `acquire` with a falsy timeout creates a waiter that is
unregistered and safe. -/
theorem semSafe_acquire (t : Option Int) (s : Sem) (ht : truthy t = false)
    (h : SemFresh s) (wid : Nat) (hblk : (Sem.acquire t s).2 = some wid) :
    SemSafe wid (Sem.acquire t s).1 := by
  obtain ⟨hw, hl⟩ := h
  unfold Sem.acquire at hblk ⊢
  by_cases hv : 0 < s.value
  · rw [if_pos hv] at hblk
    cases hblk
  · rw [if_neg hv] at hblk ⊢
    simp only [Option.some.injEq] at hblk
    subst hblk
    refine ⟨?_, ?_, Nat.lt_succ_self _⟩
    · intro w hm hwid
      have hm2 : w ∈ s.waiters ++ [⟨s.nextId, false, truthy t⟩] := hm
      simp only [List.mem_append, List.mem_singleton] at hm2
      cases hm2 with
      | inl h1 => exact absurd hwid (Nat.ne_of_lt (hw w h1))
      | inr h2 =>
        subst h2
        exact ht
    · intro hm
      have h5 : s.nextId < s.nextId := hl (s.nextId, SemRes.timeoutErr) hm
      omega

/-- Waiters collected by `notify` come from the deque. -/
theorem notifyLoop_wake_mem (n : Nat) (ws : List CWaiter) :
    ∀ w ∈ (notifyLoop n ws).1, w ∈ ws := by
  intro w hw
  have hs := (notifyLoop_spec n ws).1
  rw [hs] at hw
  exact List.mem_of_mem_filter (List.mem_of_mem_take hw)

/-- Waiters left by `notify` come from the deque. -/
theorem notifyLoop_rem_mem (n : Nat) (ws : List CWaiter) :
    ∀ w ∈ (notifyLoop n ws).2, w ∈ ws := by
  intro w hw
  obtain ⟨k, hk, -⟩ := (notifyLoop_spec n ws).2
  rw [hk] at hw
  exact List.mem_of_mem_drop hw

/-- The `Condition.notify` transition written with projections instead of the
destructuring bind. -/
theorem cond_notify_eq (n : Nat) (c : Cond) :
    Cond.notify n c =
      { c with
          waiters := (notifyLoop n c.waiters).2,
          log := c.log ++ (notifyLoop n c.waiters).1.map (fun w => (w.id, true)) } := by
  unfold Cond.notify
  rcases notifyLoop n c.waiters with ⟨wake, rem⟩
  rfl

/-- Every condition event preserves identity freshness. -/
theorem condFresh_step (op : CondOp) (c : Cond) (h : CondFresh c) :
    CondFresh (applyCondOp op c) := by
  obtain ⟨hw, hl⟩ := h
  have hnotify : ∀ n, CondFresh (Cond.notify n c) := by
    intro n
    rw [cond_notify_eq]
    refine ⟨?_, ?_⟩
    · intro w hm
      exact hw w (notifyLoop_rem_mem n c.waiters w hm)
    · intro p hm
      have hm2 : p ∈ c.log ++ (notifyLoop n c.waiters).1.map (fun w => (w.id, true)) := hm
      simp only [List.mem_append] at hm2
      cases hm2 with
      | inl h1 => exact hl p h1
      | inr h2 =>
        obtain ⟨w, hwm, hpw⟩ := List.mem_map.mp h2
        have hmem := notifyLoop_wake_mem n c.waiters w hwm
        subst hpw
        exact hw w hmem
  cases op with
  | wait t =>
    show CondFresh (Cond.wait t c).1
    refine ⟨?_, ?_⟩
    · intro w hm
      have hm2 : w ∈ c.waiters ++ [⟨c.nextId, false, truthy t⟩] := hm
      simp only [List.mem_append, List.mem_singleton] at hm2
      cases hm2 with
      | inl h1 => exact Nat.lt_succ_of_lt (hw w h1)
      | inr h2 =>
        subst h2
        exact Nat.lt_succ_self _
    · intro p hm
      exact Nat.lt_succ_of_lt (hl p hm)
  | notify n => exact hnotify n
  | notifyAll => exact hnotify _
  | fire i =>
    show CondFresh (Cond.fire i c)
    unfold Cond.fire
    split
    · rename_i hany
      dsimp only
      rcases hgc : garbageCollectL (fun w => w.done)
          (c.waiters.map (fun w => if w.id == i then { w with done := true } else w))
          c.timeouts with ⟨ws2, t2⟩
      rw [hgc]
      refine ⟨?_, ?_⟩
      · intro w hm
        have hm2 := garbageCollectL_mem _ _ _ _ _ hgc w hm
        obtain ⟨w0, hw0, hfw⟩ := List.mem_map.mp hm2
        have hid : w.id = w0.id := by
          subst hfw
          by_cases hb : (w0.id == i) = true <;> simp [hb]
        rw [hid]
        exact hw w0 hw0
      · intro p hm
        simp only [List.mem_append, List.mem_singleton] at hm
        cases hm with
        | inl h1 => exact hl p h1
        | inr h2 =>
          subst h2
          obtain ⟨w, hwm, hcond⟩ := List.any_eq_true.mp hany
          have : w.id = i := by
            simp only [Bool.and_eq_true, beq_iff_eq] at hcond
            exact hcond.1.1
          simpa [← this] using hw w hwm
    · exact ⟨hw, hl⟩

/-- Every condition event preserves the no-timeout safety of waiter
`wid`: in particular `notify` only ever logs `True` resolutions. -/
theorem condSafe_step (wid : Nat) (op : CondOp) (c : Cond)
    (h : CondSafe wid c) : CondSafe wid (applyCondOp op c) := by
  obtain ⟨hreg, hlog, hid⟩ := h
  have hnotify : ∀ n, CondSafe wid (Cond.notify n c) := by
    intro n
    rw [cond_notify_eq]
    refine ⟨?_, ?_, hid⟩
    · intro w hm hwid
      exact hreg w (notifyLoop_rem_mem n c.waiters w hm) hwid
    · intro hm
      have hm2 : (wid, false) ∈
          c.log ++ (notifyLoop n c.waiters).1.map (fun w => (w.id, true)) := hm
      simp only [List.mem_append] at hm2
      cases hm2 with
      | inl h1 => exact hlog h1
      | inr h2 =>
        obtain ⟨w, -, hpw⟩ := List.mem_map.mp h2
        have : (true : Bool) = false := congrArg Prod.snd hpw
        cases this
  cases op with
  | wait t =>
    show CondSafe wid (Cond.wait t c).1
    refine ⟨?_, hlog, Nat.lt_succ_of_lt hid⟩
    intro w hm hwid
    have hm2 : w ∈ c.waiters ++ [⟨c.nextId, false, truthy t⟩] := hm
    simp only [List.mem_append, List.mem_singleton] at hm2
    cases hm2 with
    | inl h1 => exact hreg w h1 hwid
    | inr h2 =>
      subst h2
      simp only at hwid
      omega
  | notify n => exact hnotify n
  | notifyAll => exact hnotify _
  | fire i =>
    show CondSafe wid (Cond.fire i c)
    unfold Cond.fire
    split
    · rename_i hany
      dsimp only
      rcases hgc : garbageCollectL (fun w => w.done)
          (c.waiters.map (fun w => if w.id == i then { w with done := true } else w))
          c.timeouts with ⟨ws2, t2⟩
      have hne : i ≠ wid := by
        intro hiw
        subst hiw
        obtain ⟨w, hwm, hcond⟩ := List.any_eq_true.mp hany
        simp only [Bool.and_eq_true, beq_iff_eq, Bool.not_eq_true'] at hcond
        have := hreg w hwm hcond.1.1
        rw [this] at hcond
        exact Bool.false_ne_true hcond.1.2
      rw [hgc]
      refine ⟨?_, ?_, hid⟩
      · intro w hm hwid
        have hm2 := garbageCollectL_mem _ _ _ _ _ hgc w hm
        obtain ⟨w0, hw0, hfw⟩ := List.mem_map.mp hm2
        by_cases hb : (w0.id == i) = true
        · have hw0id : w0.id = i := by simpa using hb
          subst hfw
          simp only [hb, if_true] at hwid ⊢
          exact absurd (hwid ▸ hw0id : wid = i) (fun hh => hne hh.symm)
        · subst hfw
          simp only [hb, if_false] at hwid ⊢
          exact hreg w0 hw0 hwid
      · intro hm
        simp only [List.mem_append, List.mem_singleton] at hm
        cases hm with
        | inl h1 => exact hlog h1
        | inr h2 =>
          have hwi : wid = i := congrArg Prod.fst h2
          exact hne hwi.symm
    · exact ⟨hreg, hlog, hid⟩

/-- A `Condition.wait` with a falsy timeout creates an unregistered, safe
waiter. -/
theorem condSafe_wait (t : Option Int) (c : Cond) (ht : truthy t = false)
    (h : CondFresh c) : CondSafe (Cond.wait t c).2 (Cond.wait t c).1 := by
  obtain ⟨hw, hl⟩ := h
  refine ⟨?_, ?_, Nat.lt_succ_self _⟩
  · intro w hm hwid
    have hm2 : w ∈ c.waiters ++ [⟨c.nextId, false, truthy t⟩] := hm
    simp only [List.mem_append, List.mem_singleton] at hm2
    cases hm2 with
    | inl h1 => exact absurd hwid (Nat.ne_of_lt (hw w h1))
    | inr h2 =>
      subst h2
      exact ht
  · intro hm
    have h5 : c.nextId < c.nextId := hl (c.nextId, false) hm
    omega

/-- Python `_consume_expired` preserves identity freshness. -/
theorem consumeExpired_qfresh {α : Type} (s : Q α) (h : QFresh s) :
    QFresh (consumeExpired s) := by
  obtain ⟨hg, hp, hl⟩ := h
  refine ⟨?_, ?_, hl⟩
  · intro g hm
    exact hg g ((List.dropWhile_suffix _).sublist.mem hm)
  · intro p hm
    exact hp p ((List.dropWhile_suffix _).sublist.mem hm)

/-- Python `put_nowait` preserves identity freshness. -/
theorem putNowait_qfresh {α : Type} (lt : α → α → Bool) (st : Strat) (x : α)
    (s : Q α) (h : QFresh s) : QFresh (putNowait lt st x s).1 := by
  obtain ⟨hg1, hp1, hl1⟩ := consumeExpired_qfresh s h
  unfold putNowait
  cases hge : (consumeExpired s).getters with
  | cons getter grest =>
    simp only [hge]
    have hgetter : getter ∈ (consumeExpired s).getters := by
      rw [hge]
      exact List.mem_cons_self _ _
    have hgrest : ∀ g ∈ grest, g ∈ (consumeExpired s).getters := by
      intro g hm
      rw [hge]
      exact List.mem_cons_of_mem _ hm
    cases hsg : stratGet lt st
        (putInternal lt st x { consumeExpired s with getters := grest }).queue with
    | some yq =>
      cases yq with
      | mk y q2 =>
        simp only [hsg]
        refine ⟨?_, ?_, ?_⟩
        · intro g hm
          exact hg1 g (hgrest g hm)
        · intro p hm
          exact hp1 p hm
        · intro e hm
          have hm2 : e ∈ (consumeExpired s).log ++ [(getter.id, QLog.gotItem y)] := hm
          simp only [List.mem_append, List.mem_singleton] at hm2
          cases hm2 with
          | inl h1 => exact hl1 e h1
          | inr h2 =>
            subst h2
            exact hg1 getter hgetter
    | none =>
      simp only [hsg]
      exact ⟨fun g hm => hg1 g (hgrest g hm), fun p hm => hp1 p hm,
        fun e hm => hl1 e hm⟩
  | nil =>
    simp only [hge]
    split
    · exact ⟨fun g hm => hg1 g (hge ▸ hm), hp1, hl1⟩
    · exact ⟨fun g hm => hg1 g (hge ▸ hm), hp1, hl1⟩

/-- Python `get_nowait` preserves identity freshness. -/
theorem getNowait_qfresh {α : Type} (lt : α → α → Bool) (st : Strat)
    (s : Q α) (h : QFresh s) : QFresh (getNowait lt st s).1 := by
  obtain ⟨hg1, hp1, hl1⟩ := consumeExpired_qfresh s h
  unfold getNowait
  cases hpe : (consumeExpired s).putters with
  | cons ip prest =>
    cases ip with
    | mk item putter =>
      simp only [hpe]
      have hputter : (item, putter) ∈ (consumeExpired s).putters := by
        rw [hpe]
        exact List.mem_cons_self _ _
      have hprest : ∀ p ∈ prest, p ∈ (consumeExpired s).putters := by
        intro p hm
        rw [hpe]
        exact List.mem_cons_of_mem _ hm
      cases hsg : stratGet lt st
          (putInternal lt st item { consumeExpired s with putters := prest }).queue with
      | some yq =>
        cases yq with
        | mk y q2 =>
          simp only [hsg]
          refine ⟨?_, ?_, ?_⟩
          · intro g hm
            exact hg1 g hm
          · intro p hm
            exact hp1 p (hprest p hm)
          · intro e hm
            have hm2 : e ∈ (consumeExpired s).log ++ [(putter.id, QLog.putOk)] := hm
            simp only [List.mem_append, List.mem_singleton] at hm2
            cases hm2 with
            | inl h1 => exact hl1 e h1
            | inr h2 =>
              subst h2
              exact hp1 (item, putter) hputter
      | none =>
        simp only [hsg]
        refine ⟨fun g hm => hg1 g hm, fun p hm => hp1 p (hprest p hm), ?_⟩
        intro e hm
        have hm2 : e ∈ (consumeExpired s).log ++ [(putter.id, QLog.putOk)] := hm
        simp only [List.mem_append, List.mem_singleton] at hm2
        cases hm2 with
        | inl h1 => exact hl1 e h1
        | inr h2 =>
          subst h2
          exact hp1 (item, putter) hputter
  | nil =>
    simp only [hpe]
    cases hsg : stratGet lt st (consumeExpired s).queue with
    | some yq =>
      cases yq with
      | mk y q2 =>
        simp only [hsg]
        exact ⟨hg1, fun p hm => hp1 p (hpe ▸ hm), hl1⟩
    | none =>
      simp only [hsg]
      exact ⟨hg1, fun p hm => hp1 p (hpe ▸ hm), hl1⟩

/-- Every queue event preserves identity freshness. -/
theorem qfresh_step {α : Type} (lt : α → α → Bool) (st : Strat) (op : QOp α)
    (s : Q α) (h : QFresh s) : QFresh (applyQOp lt st op s) := by
  cases op with
  | putNowait x => exact putNowait_qfresh lt st x s h
  | put x t =>
    show QFresh (put lt st x t s).1
    have h1 := putNowait_qfresh lt st x s h
    unfold put
    rcases hpn : putNowait lt st x s with ⟨s1, ok⟩
    rw [hpn] at h1
    obtain ⟨hg1, hp1, hl1⟩ := h1
    cases ok with
    | true => exact ⟨hg1, hp1, hl1⟩
    | false =>
      refine ⟨?_, ?_, ?_⟩
      · intro g hm
        exact Nat.lt_succ_of_lt (hg1 g hm)
      · intro p hm
        have hm2 : p ∈ s1.putters ++ [(x, ⟨s1.nextId, false, truthy t⟩)] := hm
        simp only [List.mem_append, List.mem_singleton] at hm2
        cases hm2 with
        | inl h1 => exact Nat.lt_succ_of_lt (hp1 p h1)
        | inr h2 =>
          subst h2
          exact Nat.lt_succ_self _
      · intro e hm
        exact Nat.lt_succ_of_lt (hl1 e hm)
  | getNowait => exact getNowait_qfresh lt st s h
  | get t =>
    show QFresh (getQ lt st t s).1
    have h1 := getNowait_qfresh lt st s h
    unfold getQ
    rcases hgn : getNowait lt st s with ⟨s1, r⟩
    rw [hgn] at h1
    obtain ⟨hg1, hp1, hl1⟩ := h1
    cases r with
    | some y => exact ⟨hg1, hp1, hl1⟩
    | none =>
      refine ⟨?_, ?_, ?_⟩
      · intro g hm
        have hm2 : g ∈ s1.getters ++ [⟨s1.nextId, false, truthy t⟩] := hm
        simp only [List.mem_append, List.mem_singleton] at hm2
        cases hm2 with
        | inl h1 => exact Nat.lt_succ_of_lt (hg1 g h1)
        | inr h2 =>
          subst h2
          exact Nat.lt_succ_self _
      · intro p hm
        exact Nat.lt_succ_of_lt (hp1 p hm)
      · intro e hm
        exact Nat.lt_succ_of_lt (hl1 e hm)
  | taskDone =>
    show QFresh (taskDone s).1
    obtain ⟨hg, hp, hl⟩ := h
    unfold taskDone
    split
    · exact ⟨hg, hp, hl⟩
    · exact ⟨hg, hp, hl⟩
  | fireGetter i =>
    show QFresh (fireGetter i s)
    obtain ⟨hg, hp, hl⟩ := h
    unfold fireGetter
    split
    · rename_i hany
      refine ⟨?_, hp, ?_⟩
      · intro g hm
        obtain ⟨g0, hg0, hfg⟩ := List.mem_map.mp hm
        have hid : g.id = g0.id := by
          subst hfg
          by_cases hb : (g0.id == i) = true <;> simp [hb]
        rw [hid]
        exact hg g0 hg0
      · intro e hm
        have hm2 : e ∈ s.log ++ [(i, QLog.timeoutErr)] := hm
        simp only [List.mem_append, List.mem_singleton] at hm2
        cases hm2 with
        | inl h1 => exact hl e h1
        | inr h2 =>
          subst h2
          obtain ⟨g, hgm, hcond⟩ := List.any_eq_true.mp hany
          have : g.id = i := by
            simp only [Bool.and_eq_true, beq_iff_eq] at hcond
            exact hcond.1.1
          simpa [← this] using hg g hgm
    · exact ⟨hg, hp, hl⟩
  | firePutter i =>
    show QFresh (firePutter i s)
    obtain ⟨hg, hp, hl⟩ := h
    unfold firePutter
    split
    · rename_i hany
      refine ⟨hg, ?_, ?_⟩
      · intro p hm
        obtain ⟨p0, hp0, hfp⟩ := List.mem_map.mp hm
        have hid : p.2.id = p0.2.id := by
          subst hfp
          by_cases hb : (p0.2.id == i) = true <;> simp [hb]
        rw [hid]
        exact hp p0 hp0
      · intro e hm
        have hm2 : e ∈ s.log ++ [(i, QLog.timeoutErr)] := hm
        simp only [List.mem_append, List.mem_singleton] at hm2
        cases hm2 with
        | inl h1 => exact hl e h1
        | inr h2 =>
          subst h2
          obtain ⟨p, hpm, hcond⟩ := List.any_eq_true.mp hany
          have : p.2.id = i := by
            simp only [Bool.and_eq_true, beq_iff_eq] at hcond
            exact hcond.1.1
          simpa [← this] using hp p hpm
    · exact ⟨hg, hp, hl⟩

/-- Python `_consume_expired` preserves the no-timeout safety of waiter `wid`. -/
theorem consumeExpired_qsafe {α : Type} (wid : Nat) (s : Q α)
    (h : QSafe wid s) : QSafe wid (consumeExpired s) := by
  obtain ⟨hg, hp, hl, hid⟩ := h
  refine ⟨?_, ?_, hl, hid⟩
  · intro g hm hgw
    exact hg g ((List.dropWhile_suffix _).sublist.mem hm) hgw
  · intro p hm hpw
    exact hp p ((List.dropWhile_suffix _).sublist.mem hm) hpw

/-- Python `put_nowait` preserves the no-timeout safety of waiter `wid`: the only
resolution it logs is a getter receiving an item. -/
theorem putNowait_qsafe {α : Type} (lt : α → α → Bool) (st : Strat) (x : α)
    (wid : Nat) (s : Q α) (h : QSafe wid s) :
    QSafe wid (putNowait lt st x s).1 := by
  obtain ⟨hg1, hp1, hl1, hid⟩ := consumeExpired_qsafe wid s h
  unfold putNowait
  cases hge : (consumeExpired s).getters with
  | cons getter grest =>
    simp only [hge]
    have hgrest : ∀ g ∈ grest, g ∈ (consumeExpired s).getters := by
      intro g hm
      rw [hge]
      exact List.mem_cons_of_mem _ hm
    cases hsg : stratGet lt st
        (putInternal lt st x { consumeExpired s with getters := grest }).queue with
    | some yq =>
      cases yq with
      | mk y q2 =>
        simp only [hsg]
        refine ⟨?_, ?_, ?_, hid⟩
        · intro g hm hgw
          exact hg1 g (hgrest g hm) hgw
        · intro p hm hpw
          exact hp1 p hm hpw
        · intro hm
          have hm2 : (wid, QLog.timeoutErr) ∈
              (consumeExpired s).log ++ [(getter.id, QLog.gotItem y)] := hm
          simp only [List.mem_append, List.mem_singleton] at hm2
          cases hm2 with
          | inl h1 => exact hl1 h1
          | inr h2 =>
            have := congrArg Prod.snd h2
            simp at this
    | none =>
      simp only [hsg]
      exact ⟨fun g hm hgw => hg1 g (hgrest g hm) hgw,
        fun p hm hpw => hp1 p hm hpw, fun hm => hl1 hm, hid⟩
  | nil =>
    simp only [hge]
    split
    · exact ⟨fun g hm hgw => hg1 g (hge ▸ hm) hgw, hp1, hl1, hid⟩
    · exact ⟨fun g hm hgw => hg1 g (hge ▸ hm) hgw, hp1, hl1, hid⟩

/-- Python `get_nowait` preserves the no-timeout safety of waiter `wid`: the only
resolution it logs is a putter completing. -/
theorem getNowait_qsafe {α : Type} (lt : α → α → Bool) (st : Strat)
    (wid : Nat) (s : Q α) (h : QSafe wid s) :
    QSafe wid (getNowait lt st s).1 := by
  obtain ⟨hg1, hp1, hl1, hid⟩ := consumeExpired_qsafe wid s h
  unfold getNowait
  cases hpe : (consumeExpired s).putters with
  | cons ip prest =>
    cases ip with
    | mk item putter =>
      simp only [hpe]
      have hprest : ∀ p ∈ prest, p ∈ (consumeExpired s).putters := by
        intro p hm
        rw [hpe]
        exact List.mem_cons_of_mem _ hm
      have hlog2 : (wid, QLog.timeoutErr) ∉
          (consumeExpired s).log ++ [(putter.id, QLog.putOk)] := by
        intro hm2
        simp only [List.mem_append, List.mem_singleton] at hm2
        cases hm2 with
        | inl h1 => exact hl1 h1
        | inr h2 =>
          have := congrArg Prod.snd h2
          simp at this
      cases hsg : stratGet lt st
          (putInternal lt st item { consumeExpired s with putters := prest }).queue with
      | some yq =>
        cases yq with
        | mk y q2 =>
          simp only [hsg]
          exact ⟨fun g hm hgw => hg1 g hm hgw,
            fun p hm hpw => hp1 p (hprest p hm) hpw, fun hm => hlog2 hm, hid⟩
      | none =>
        simp only [hsg]
        exact ⟨fun g hm hgw => hg1 g hm hgw,
          fun p hm hpw => hp1 p (hprest p hm) hpw, fun hm => hlog2 hm, hid⟩
  | nil =>
    simp only [hpe]
    cases hsg : stratGet lt st (consumeExpired s).queue with
    | some yq =>
      cases yq with
      | mk y q2 =>
        simp only [hsg]
        exact ⟨hg1, fun p hm hpw => hp1 p (hpe ▸ hm) hpw, hl1, hid⟩
    | none =>
      simp only [hsg]
      exact ⟨hg1, fun p hm hpw => hp1 p (hpe ▸ hm) hpw, hl1, hid⟩

/-- Every queue event preserves the no-timeout safety of waiter `wid`. -/
theorem qsafe_step {α : Type} (lt : α → α → Bool) (st : Strat) (wid : Nat)
    (op : QOp α) (s : Q α) (h : QSafe wid s) :
    QSafe wid (applyQOp lt st op s) := by
  cases op with
  | putNowait x => exact putNowait_qsafe lt st x wid s h
  | put x t =>
    show QSafe wid (put lt st x t s).1
    have h1 := putNowait_qsafe lt st x wid s h
    unfold put
    rcases hpn : putNowait lt st x s with ⟨s1, ok⟩
    rw [hpn] at h1
    obtain ⟨hg1, hp1, hl1, hid⟩ := h1
    cases ok with
    | true => exact ⟨hg1, hp1, hl1, hid⟩
    | false =>
      refine ⟨hg1, ?_, hl1, Nat.lt_succ_of_lt hid⟩
      intro p hm hpw
      have hm2 : p ∈ s1.putters ++ [(x, ⟨s1.nextId, false, truthy t⟩)] := hm
      simp only [List.mem_append, List.mem_singleton] at hm2
      cases hm2 with
      | inl h1 => exact hp1 p h1 hpw
      | inr h2 =>
        subst h2
        simp only at hpw
        have hid2 : wid < s1.nextId := hid
        omega
  | getNowait => exact getNowait_qsafe lt st wid s h
  | get t =>
    show QSafe wid (getQ lt st t s).1
    have h1 := getNowait_qsafe lt st wid s h
    unfold getQ
    rcases hgn : getNowait lt st s with ⟨s1, r⟩
    rw [hgn] at h1
    obtain ⟨hg1, hp1, hl1, hid⟩ := h1
    cases r with
    | some y => exact ⟨hg1, hp1, hl1, hid⟩
    | none =>
      refine ⟨?_, hp1, hl1, Nat.lt_succ_of_lt hid⟩
      intro g hm hgw
      have hm2 : g ∈ s1.getters ++ [⟨s1.nextId, false, truthy t⟩] := hm
      simp only [List.mem_append, List.mem_singleton] at hm2
      cases hm2 with
      | inl h1 => exact hg1 g h1 hgw
      | inr h2 =>
        subst h2
        simp only at hgw
        have hid2 : wid < s1.nextId := hid
        omega
  | taskDone =>
    show QSafe wid (taskDone s).1
    obtain ⟨hg, hp, hl, hid⟩ := h
    unfold taskDone
    split
    · exact ⟨hg, hp, hl, hid⟩
    · exact ⟨hg, hp, hl, hid⟩
  | fireGetter i =>
    show QSafe wid (fireGetter i s)
    obtain ⟨hg, hp, hl, hid⟩ := h
    unfold fireGetter
    split
    · rename_i hany
      have hne : i ≠ wid := by
        intro hiw
        subst hiw
        obtain ⟨g, hgm, hcond⟩ := List.any_eq_true.mp hany
        simp only [Bool.and_eq_true, beq_iff_eq, Bool.not_eq_true'] at hcond
        have := hg g hgm hcond.1.1
        rw [this] at hcond
        exact Bool.false_ne_true hcond.1.2
      refine ⟨?_, hp, ?_, hid⟩
      · intro g hm hgw
        obtain ⟨g0, hg0, hfg⟩ := List.mem_map.mp hm
        by_cases hb : (g0.id == i) = true
        · have hg0id : g0.id = i := by simpa using hb
          subst hfg
          simp only [hb, if_true] at hgw ⊢
          exact absurd (hgw ▸ hg0id : wid = i) (fun hh => hne hh.symm)
        · subst hfg
          simp only [hb, if_false] at hgw ⊢
          exact hg g0 hg0 hgw
      · intro hm
        have hm2 : (wid, QLog.timeoutErr) ∈ s.log ++ [(i, QLog.timeoutErr)] := hm
        simp only [List.mem_append, List.mem_singleton] at hm2
        cases hm2 with
        | inl h1 => exact hl h1
        | inr h2 =>
          have hwi : wid = i := congrArg Prod.fst h2
          exact hne hwi.symm
    · exact ⟨hg, hp, hl, hid⟩
  | firePutter i =>
    show QSafe wid (firePutter i s)
    obtain ⟨hg, hp, hl, hid⟩ := h
    unfold firePutter
    split
    · rename_i hany
      have hne : i ≠ wid := by
        intro hiw
        subst hiw
        obtain ⟨p, hpm, hcond⟩ := List.any_eq_true.mp hany
        simp only [Bool.and_eq_true, beq_iff_eq, Bool.not_eq_true'] at hcond
        have := hp p hpm hcond.1.1
        rw [this] at hcond
        exact Bool.false_ne_true hcond.1.2
      refine ⟨hg, ?_, ?_, hid⟩
      · intro p hm hpw
        obtain ⟨p0, hp0, hfp⟩ := List.mem_map.mp hm
        by_cases hb : (p0.2.id == i) = true
        · have hp0id : p0.2.id = i := by simpa using hb
          subst hfp
          simp only [hb, if_true] at hpw ⊢
          exact absurd (hpw ▸ hp0id : wid = i) (fun hh => hne hh.symm)
        · subst hfp
          simp only [hb, if_false] at hpw ⊢
          exact hp p0 hp0 hpw
      · intro hm
        have hm2 : (wid, QLog.timeoutErr) ∈ s.log ++ [(i, QLog.timeoutErr)] := hm
        simp only [List.mem_append, List.mem_singleton] at hm2
        cases hm2 with
        | inl h1 => exact hl h1
        | inr h2 =>
          have hwi : wid = i := congrArg Prod.fst h2
          exact hne hwi.symm
    · exact ⟨hg, hp, hl, hid⟩

/-- A `put` that blocks with a falsy timeout creates an unregistered, safe
putter waiter. -/
theorem qsafe_put_blocked {α : Type} (lt : α → α → Bool) (st : Strat)
    (x : α) (t : Option Int) (s : Q α) (ht : truthy t = false)
    (h : QFresh s) (wid : Nat) (hblk : (put lt st x t s).2 = some wid) :
    QSafe wid (put lt st x t s).1 := by
  have h1 := putNowait_qfresh lt st x s h
  unfold put at hblk ⊢
  rcases hpn : putNowait lt st x s with ⟨s1, ok⟩
  rw [hpn] at h1 hblk
  obtain ⟨hg1, hp1, hl1⟩ := h1
  cases ok with
  | true => exact Option.noConfusion hblk
  | false =>
    have hwid : s1.nextId = wid := by simpa using hblk
    subst hwid
    refine ⟨?_, ?_, ?_, Nat.lt_succ_self _⟩
    · intro g hm hgw
      exact absurd hgw (Nat.ne_of_lt (hg1 g hm))
    · intro p hm hpw
      have hm2 : p ∈ s1.putters ++ [(x, ⟨s1.nextId, false, truthy t⟩)] := hm
      simp only [List.mem_append, List.mem_singleton] at hm2
      cases hm2 with
      | inl hx1 => exact absurd hpw (Nat.ne_of_lt (hp1 p hx1))
      | inr hx2 =>
        subst hx2
        exact ht
    · intro hm
      have h5 : s1.nextId < s1.nextId := hl1 (s1.nextId, QLog.timeoutErr) hm
      omega

/-- A `get` that blocks with a falsy timeout creates an unregistered, safe
getter waiter. -/
theorem qsafe_get_blocked {α : Type} (lt : α → α → Bool) (st : Strat)
    (t : Option Int) (s : Q α) (ht : truthy t = false)
    (h : QFresh s) (wid : Nat) (hblk : (getQ lt st t s).2 = FutOut.pending wid) :
    QSafe wid (getQ lt st t s).1 := by
  have h1 := getNowait_qfresh lt st s h
  unfold getQ at hblk ⊢
  rcases hgn : getNowait lt st s with ⟨s1, r⟩
  rw [hgn] at h1 hblk
  obtain ⟨hg1, hp1, hl1⟩ := h1
  cases r with
  | some y => exact FutOut.noConfusion hblk
  | none =>
    have hwid : s1.nextId = wid := by
      have := FutOut.pending.inj hblk
      simpa using this
    subst hwid
    refine ⟨?_, ?_, ?_, Nat.lt_succ_self _⟩
    · intro g hm hgw
      have hm2 : g ∈ s1.getters ++ [⟨s1.nextId, false, truthy t⟩] := hm
      simp only [List.mem_append, List.mem_singleton] at hm2
      cases hm2 with
      | inl hx1 => exact absurd hgw (Nat.ne_of_lt (hg1 g hx1))
      | inr hx2 =>
        subst hx2
        exact ht
    · intro p hm hpw
      exact absurd hpw (Nat.ne_of_lt (hp1 p hm))
    · intro hm
      have h5 : s1.nextId < s1.nextId := hl1 (s1.nextId, QLog.timeoutErr) hm
      omega

/-- Claim C10: a falsy `timeout` (`None` or `0`) registers no timeout
callback — `truthy` is false, so `Condition.wait`, `Semaphore.acquire`
(and `Lock.acquire`, which delegates verbatim), `Queue.put` and
`Queue.get` skip `add_timeout` — and consequently, whatever events follow,
the waiter created by such a call is never resolved with the timeout
outcome: it can only be resolved by the matching notify / release /
rendezvous event. -/
theorem c10_falsy_timeout (t : Option Int) (ht : t = none ∨ t = some 0) :
    truthy t = false ∧
    (∀ (t2 : Option Int) (s : Sem), lockAcquire t2 s = Sem.acquire t2 s) ∧
    (∀ (v : Nat) (ops1 ops2 : List SemOp) (wid : Nat),
      (Sem.acquire t (runSem ops1 (Sem.init v))).2 = some wid →
      (wid, SemRes.timeoutErr) ∉
        (runSem ops2 (Sem.acquire t (runSem ops1 (Sem.init v))).1).log) ∧
    (∀ ops1 ops2 : List CondOp,
      ((Cond.wait t (runCond ops1 Cond.initC)).2, false) ∉
        (runCond ops2 (Cond.wait t (runCond ops1 Cond.initC)).1).log) ∧
    (∀ (α : Type) (lt : α → α → Bool) (st : Strat) (m : Nat) (x : α)
      (ops1 ops2 : List (QOp α)) (wid : Nat),
      (put lt st x t (runQ lt st ops1 (initQ m))).2 = some wid →
      (wid, QLog.timeoutErr) ∉
        (runQ lt st ops2 (put lt st x t (runQ lt st ops1 (initQ m))).1).log) ∧
    (∀ (α : Type) (lt : α → α → Bool) (st : Strat) (m : Nat)
      (ops1 ops2 : List (QOp α)) (wid : Nat),
      (getQ lt st t (runQ lt st ops1 (initQ m))).2 = FutOut.pending wid →
      (wid, QLog.timeoutErr) ∉
        (runQ lt st ops2 (getQ lt st t (runQ lt st ops1 (initQ m))).1).log) := by
  have htr : truthy t = false := by
    rcases ht with rfl | rfl <;> rfl
  refine ⟨htr, fun t2 s => rfl, ?_, ?_, ?_, ?_⟩
  · intro v ops1 ops2 wid hblk hmem
    have hf : SemFresh (runSem ops1 (Sem.init v)) := by
      refine foldl_preserve SemFresh _ ?_ ops1 _ ?_
      · intro s op hs
        exact semFresh_step op s hs
      · exact ⟨by simp [Sem.init], by simp [Sem.init]⟩
    have hs := semSafe_acquire t _ htr hf wid hblk
    have hs2 : SemSafe wid
        (runSem ops2 (Sem.acquire t (runSem ops1 (Sem.init v))).1) := by
      refine foldl_preserve (SemSafe wid) _ ?_ ops2 _ hs
      intro s op hsafe
      exact semSafe_step wid op s hsafe
    exact hs2.2.1 hmem
  · intro ops1 ops2 hmem
    have hf : CondFresh (runCond ops1 Cond.initC) := by
      refine foldl_preserve CondFresh _ ?_ ops1 _ ?_
      · intro c op hc
        exact condFresh_step op c hc
      · exact ⟨by simp [Cond.initC], by simp [Cond.initC]⟩
    have hs := condSafe_wait t _ htr hf
    have hs2 : CondSafe (Cond.wait t (runCond ops1 Cond.initC)).2
        (runCond ops2 (Cond.wait t (runCond ops1 Cond.initC)).1) := by
      refine foldl_preserve (CondSafe _) _ ?_ ops2 _ hs
      intro c op hsafe
      exact condSafe_step _ op c hsafe
    exact hs2.2.1 hmem
  · intro α lt st m x ops1 ops2 wid hblk hmem
    have hf : QFresh (runQ lt st ops1 (initQ m)) := by
      refine foldl_preserve QFresh _ ?_ ops1 _ ?_
      · intro s op hs
        exact qfresh_step lt st op s hs
      · exact ⟨by simp [initQ], by simp [initQ], by simp [initQ]⟩
    have hs := qsafe_put_blocked lt st x t _ htr hf wid hblk
    have hs2 : QSafe wid
        (runQ lt st ops2 (put lt st x t (runQ lt st ops1 (initQ m))).1) := by
      refine foldl_preserve (QSafe wid) _ ?_ ops2 _ hs
      intro s op hsafe
      exact qsafe_step lt st wid op s hsafe
    exact hs2.2.2.1 hmem
  · intro α lt st m ops1 ops2 wid hblk hmem
    have hf : QFresh (runQ lt st ops1 (initQ m)) := by
      refine foldl_preserve QFresh _ ?_ ops1 _ ?_
      · intro s op hs
        exact qfresh_step lt st op s hs
      · exact ⟨by simp [initQ], by simp [initQ], by simp [initQ]⟩
    have hs := qsafe_get_blocked lt st t _ htr hf wid hblk
    have hs2 : QSafe wid
        (runQ lt st ops2 (getQ lt st t (runQ lt st ops1 (initQ m))).1) := by
      refine foldl_preserve (QSafe wid) _ ?_ ops2 _ hs
      intro s op hsafe
      exact qsafe_step lt st wid op s hsafe
    exact hs2.2.2.1 hmem

/-- Witness for C10 at the concrete falsy timeout `0`. -/
theorem c10_falsy_timeout_witness :
    truthy (some 0) = false ∧
    (∀ (t2 : Option Int) (s : Sem), lockAcquire t2 s = Sem.acquire t2 s) ∧
    (∀ (v : Nat) (ops1 ops2 : List SemOp) (wid : Nat),
      (Sem.acquire (some 0) (runSem ops1 (Sem.init v))).2 = some wid →
      (wid, SemRes.timeoutErr) ∉
        (runSem ops2 (Sem.acquire (some 0) (runSem ops1 (Sem.init v))).1).log) ∧
    (∀ ops1 ops2 : List CondOp,
      ((Cond.wait (some 0) (runCond ops1 Cond.initC)).2, false) ∉
        (runCond ops2 (Cond.wait (some 0) (runCond ops1 Cond.initC)).1).log) ∧
    (∀ (α : Type) (lt : α → α → Bool) (st : Strat) (m : Nat) (x : α)
      (ops1 ops2 : List (QOp α)) (wid : Nat),
      (put lt st x (some 0) (runQ lt st ops1 (initQ m))).2 = some wid →
      (wid, QLog.timeoutErr) ∉
        (runQ lt st ops2 (put lt st x (some 0) (runQ lt st ops1 (initQ m))).1).log) ∧
    (∀ (α : Type) (lt : α → α → Bool) (st : Strat) (m : Nat)
      (ops1 ops2 : List (QOp α)) (wid : Nat),
      (getQ lt st (some 0) (runQ lt st ops1 (initQ m))).2 = FutOut.pending wid →
      (wid, QLog.timeoutErr) ∉
        (runQ lt st ops2 (getQ lt st (some 0) (runQ lt st ops1 (initQ m))).1).log) :=
  c10_falsy_timeout (some 0) (Or.inr rfl)

end Tornado
